import Mathlib

/-!
Verification of the swimlane layout engine (`src/utils/txt_to_swimlanes.py`).

The development shallowly embeds the three components of the module:

* `parse_data` — the triple parser.  The Python function first extracts all
  matches of the pattern `(\S+) -- (\S+) --> (.*)` from the raw text and then
  folds over the resulting `(subject, predicate, object)` triples; lines that
  produce no match contribute nothing.  We embed the fold over the extracted
  triple list.  The only place the Python code can raise is the dictionary
  index `data_struct[milestone_id]` in the `hasstakeholder` / `hasnext`
  branches; we model that index as a fallible lookup returning `Option`
  (`none` = `KeyError`).
* `calculate_vertical_order` — Kahn's algorithm with max-relaxation.  The
  `while queue` loop is embedded as a fuel-indexed iteration together with a
  proof that the chosen fuel always suffices (the loop empties its queue), so
  the embedding computes exactly what the unbounded loop computes.  The state
  carries a ghost `processed` field recording the dequeue order; it is never
  read by the algorithm.
* `create_drawio_xml` — the layout engine and diagram emitter.  The XML tree
  is modeled as the list of children of the `<root>` element, in emission
  order, each child abstracted to its kind, identifiers, label, style, fill,
  geometry and tooltip.  Calls to `uuid.uuid4()` are modeled by consuming
  successive values of an identifier stream `σ : Nat → String` (one value per
  call, in call order), which makes the randomness of the ids explicit.
  Python float arithmetic in the slot computation (`lw / total`) is embedded
  as exact rational arithmetic; `int(x_pos)` is embedded as truncation toward
  zero of the rational value.
-/

/-- One process step: its stakeholder list and its successor list.
Mirrors the dict `{"stakeholders": [...], "next": [...]}` built by
`parse_data`. -/
structure ItemMeta where
  stakeholders : List String
  next : List String
deriving Repr, DecidableEq

/-- The items of one procedure, in insertion order (a Python dict is an
ordered map, embedded as an association list). -/
abbrev Items := List (String × ItemMeta)

/-- All procedures with their items, in insertion order.  This is the
`data_struct` dictionary of `parse_data` (each value is the `"items"`
dict). -/
abbrev DataStruct := List (String × Items)

/-- Ordered-dictionary lookup (first matching key), mirroring Python `d[k]` /
`d.get(k)`. -/
def dictGet? {κ α : Type} [DecidableEq κ] (l : List (κ × α)) (k : κ) : Option α :=
  match l with
  | [] => none
  | (k1, v) :: rest => if k1 = k then some v else dictGet? rest k

/-- Ordered-dictionary assignment `d[k] = v`: overwrites in place if the key
is present, appends at the end otherwise (Python dict semantics). -/
def dictSet {κ α : Type} [DecidableEq κ] (l : List (κ × α)) (k : κ) (v : α) : List (κ × α) :=
  match l with
  | [] => [(k, v)]
  | (k1, v1) :: rest => if k1 = k then (k, v) :: rest else (k1, v1) :: dictSet rest k v

/-- In-place mutation of the value stored at a present key (Python
`d[k].mutate()`); a no-op when the key is absent. -/
def dictUpdate {κ α : Type} [DecidableEq κ] (l : List (κ × α)) (k : κ) (f : α → α) :
    List (κ × α) :=
  match l with
  | [] => []
  | (k1, v1) :: rest => if k1 = k then (k1, f v1) :: rest else (k1, v1) :: dictUpdate rest k f

/-- Python `str.strip()`: drop leading and trailing whitespace.  Implemented
by structural recursion over the character list so that it evaluates inside
the kernel. -/
def strStrip (s : String) : String :=
  ⟨((s.data.dropWhile Char.isWhitespace).reverse.dropWhile Char.isWhitespace).reverse⟩

/-- Python `str.lower()`: lowercase every character.  Implemented by
structural recursion over the character list so that it evaluates inside the
kernel. -/
def strLower (s : String) : String :=
  ⟨s.data.map Char.toLower⟩

/-- The mutable state of the `parse_data` loop. -/
structure ParseState where
  dataStruct : DataStruct
  itemToMilestone : List (String × String)
  tooltips : List (String × String)
deriving Repr, DecidableEq

/-- The empty initial state of `parse_data`. -/
def parseInit : ParseState := { dataStruct := [], itemToMilestone := [], tooltips := [] }

/-- `if subj not in data_struct: data_struct[subj] = {"items": {}}` — ensure a
procedure key exists (new keys are appended at the end of the dict). -/
def ensureProcedure (ds : DataStruct) (subj : String) : DataStruct :=
  if (dictGet? ds subj).isSome then ds else ds ++ [(subj, [])]

/-- The `hassequenceditem` branch: ensure the procedure and the item exist and
record the ownership `item_to_milestone[obj] = subj`. -/
def seqItemBranch (st : ParseState) (subj obj : String) : ParseState :=
  let ds1 := ensureProcedure st.dataStruct subj
  let ds2 := dictUpdate ds1 subj (fun its =>
    if (dictGet? its obj).isSome then its
    else its ++ [(obj, { stakeholders := [], next := [] })])
  { st with dataStruct := ds2,
            itemToMilestone := dictSet st.itemToMilestone obj subj }

/-- `if obj not in sh_list: sh_list.append(obj)` — the stakeholder mutation. -/
def addStakeholder (obj : String) (meta : ItemMeta) : ItemMeta :=
  if obj ∈ meta.stakeholders then meta
  else { meta with stakeholders := meta.stakeholders ++ [obj] }

/-- `data_struct[...]["next"].append(obj)` — the successor mutation. -/
def addNext (obj : String) (meta : ItemMeta) : ItemMeta :=
  { meta with next := meta.next ++ [obj] }

/-- The shared shape of the `hasstakeholder` / `hasnext` branches: look up the
owning milestone (`item_to_milestone.get(subj)`, `None` and `""` are falsy),
index `data_struct[milestone_id]` (the only possible `KeyError`, modeled as
`none`), and if `subj` is a known item of that procedure apply the mutation
`upd` to it. -/
def relBranch (st : ParseState) (subj : String) (upd : ItemMeta → ItemMeta) :
    Option ParseState :=
  match dictGet? st.itemToMilestone subj with
  | none => some st
  | some m =>
    if m = "" then some st
    else
      match dictGet? st.dataStruct m with
      | none => none
      | some its =>
        if (dictGet? its subj).isSome then
          some { st with dataStruct := dictUpdate st.dataStruct m (fun its2 =>
            dictUpdate its2 subj upd) }
        else some st

/-- One iteration of the `for subj, pred, obj in triples` loop of
`parse_data`.  Returns `none` exactly where Python would raise a `KeyError`
(the index `data_struct[milestone_id]`). -/
def parseStep (st : ParseState) (t : String × String × String) : Option ParseState :=
  let subj := strStrip t.1
  let predNorm := strLower (strStrip t.2.1)
  let obj := strStrip t.2.2
  if predNorm = "sourcetext" then
    some { st with tooltips := dictSet st.tooltips subj obj }
  else if predNorm = "type" ∧ obj = "Procedure" then
    some { st with dataStruct := ensureProcedure st.dataStruct subj }
  else if predNorm = "hassequenceditem" then
    some (seqItemBranch st subj obj)
  else if predNorm = "hasstakeholder" then
    relBranch st subj (addStakeholder obj)
  else if predNorm = "hasnext" then
    relBranch st subj (addNext obj)
  else
    some st

/-- The whole triple loop of `parse_data`, folded over the extracted triple
list. -/
def parseRun (ts : List (String × String × String)) : Option ParseState :=
  ts.foldl (fun acc t => acc.bind (fun st => parseStep st t)) (some parseInit)

/-- The fallback pass at the end of `parse_data`: any item whose stakeholder
list is empty receives the single sentinel `"Unassigned"`. -/
def applyFallback (ds : DataStruct) : DataStruct :=
  ds.map (fun p => (p.1, p.2.map (fun q =>
    (q.1, if q.2.stakeholders = [] then { q.2 with stakeholders := ["Unassigned"] } else q.2))))

/-- `parse_data`, from the extracted triple list to the structured graph and
the tooltip map.  `none` would mean an uncaught `KeyError`. -/
def parse_data (ts : List (String × String × String)) :
    Option (DataStruct × List (String × String)) :=
  (parseRun ts).map (fun st => (applyFallback st.dataStruct, st.tooltips))

/-- The triple stream contains a `hasSequencedItem` triple naming `x` as its
object (i.e. a triple that establishes `x` as an owned item). -/
def namesSeqItem (ts : List (String × String × String)) (x : String) : Prop :=
  ∃ t ∈ ts, strLower (strStrip t.2.1) = "hassequenceditem" ∧ strStrip t.2.2 = x

/-- The triple stream contains a `hasStakeholder` triple whose subject is
`i`. -/
def stakeTriple (ts : List (String × String × String)) (i : String) : Prop :=
  ∃ t ∈ ts, strLower (strStrip t.2.1) = "hasstakeholder" ∧ strStrip t.1 = i

/-- Parser loop invariant: every milestone recorded in `item_to_milestone` is
a key of `data_struct`, so the index `data_struct[milestone_id]` cannot
raise. -/
def ParseInv (st : ParseState) : Prop :=
  ∀ i m, dictGet? st.itemToMilestone i = some m → (dictGet? st.dataStruct m).isSome

/-- The keys of an items dict, in iteration order. -/
def keysOf (items : Items) : List String := items.map Prod.fst

/-- The adjacency dict of `calculate_vertical_order`: `adj[u]` collects the
targets of `u`'s `next` list that are themselves keys of `items`, in order,
duplicates kept (`if target in adj: adj[item_id].append(target)`). -/
def adjOf (items : Items) (u : String) : List String :=
  match dictGet? items u with
  | some meta => meta.next.filter (fun t => decide (t ∈ keysOf items))
  | none => []

/-- The `in_degree` dict after the edge-construction loop: how many times `v`
occurs as a target across all adjacency lists.  Python integers are
unbounded and signed, so the degree is an `Int`. -/
def inDeg0 (items : Items) (v : String) : Int :=
  ((keysOf items).map (fun u => ((adjOf items u).count v : Int))).sum

/-- The state of the `while queue` loop of `calculate_vertical_order`: the
`levels` and `in_degree` dicts (as functions on identifiers), the pending
`queue`, and a ghost field `processed` recording the dequeue order.  The
ghost field is written once per dequeue and never read by the algorithm. -/
structure KahnState where
  levels : String → Nat
  inDeg : String → Int
  queue : List String
  processed : List String

/-- The inner `for v in adj[u]` loop: relax one edge at a time, reading
`levels[u]` afresh at every edge exactly as the Python loop does. -/
def processEdges (u : String) (s : KahnState) : List String → KahnState
  | [] => s
  | v :: vs =>
    let newLevel := max (s.levels v) (s.levels u + 1)
    let newDeg := s.inDeg v - 1
    processEdges u
      { levels := fun w => if w = v then newLevel else s.levels w
        inDeg := fun w => if w = v then newDeg else s.inDeg w
        queue := if newDeg = 0 then s.queue ++ [v] else s.queue
        processed := s.processed } vs

/-- One iteration of `while queue`: pop the head (`popleft`) and relax its
outgoing edges. -/
def kahnStep (items : Items) (s : KahnState) : KahnState :=
  match s.queue with
  | [] => s
  | u :: rest =>
    processEdges u
      { levels := s.levels, inDeg := s.inDeg, queue := rest,
        processed := s.processed ++ [u] } (adjOf items u)

/-- Fuel-indexed iteration of the `while queue` loop; idles once the queue is
empty. -/
def kahnRun (items : Items) : Nat → KahnState → KahnState
  | 0, s => s
  | fuel + 1, s =>
    match s.queue with
    | [] => s
    | _ :: _ => kahnRun items fuel (kahnStep items s)

/-- The state before the loop: every level `0`, in-degrees as constructed,
queue seeded with the zero-in-degree keys in dict order. -/
def kahnInit (items : Items) : KahnState :=
  { levels := fun _ => 0
    inDeg := inDeg0 items
    queue := (keysOf items).filter (fun i => decide (inDeg0 items i = 0))
    processed := [] }

/-- Decreasing measure of the loop (queue length plus clamped in-degrees over
the keys); used only to pick a fuel provably large enough for the loop to
drain its queue. -/
def kahnMeasure (items : Items) (s : KahnState) : Nat :=
  s.queue.length + ((keysOf items).map (fun v => (s.inDeg v).toNat)).sum

/-- Fuel that suffices for the loop to terminate (see `kahn_terminates`). -/
def kahnFuel (items : Items) : Nat := kahnMeasure items (kahnInit items)

/-- The state after the `while queue` loop has drained its queue. -/
def kahnFinal (items : Items) : KahnState :=
  kahnRun items (kahnFuel items) (kahnInit items)

/-- `calculate_vertical_order`: the returned `levels` dict, as a function
(meaningful on the keys of `items`, which are the dict's keys). -/
def calculate_vertical_order (items : Items) : String → Nat :=
  (kahnFinal items).levels

/-- Reachability (by a non-empty path) along the adjacency lists used by
`calculate_vertical_order`. -/
inductive ReachAdj (items : Items) : String → String → Prop
  | base : ∀ {u v : String}, v ∈ adjOf items u → ReachAdj items u v
  | step : ∀ {u v w : String}, v ∈ adjOf items u → ReachAdj items v w → ReachAdj items u w

/-- `v` lies on a directed cycle of the successor graph of `items`. -/
def OnCycle (items : Items) (v : String) : Prop := ReachAdj items v v

/-- Number of unrelaxed in-edges of `v` coming from keys outside
`processed`. -/
def remIn (items : Items) (processed : List String) (v : String) : Int :=
  (((keysOf items).filter (fun u => decide (u ∉ processed))).map
    (fun u => ((adjOf items u).count v : Int))).sum

/-- The invariant of the `while queue` loop, stated between edge relaxations:
`u0` is the node currently being processed and `vs` the still-unrelaxed
suffix of its adjacency list (`vs = []` at iteration boundaries). -/
structure KahnInv (items : Items) (u0 : String) (vs : List String) (s : KahnState) : Prop where
  procNodup : s.processed.Nodup
  queueNodup : s.queue.Nodup
  disj : ∀ x ∈ s.queue, x ∉ s.processed
  procKeys : ∀ x ∈ s.processed, x ∈ keysOf items
  queueKeys : ∀ x ∈ s.queue, x ∈ keysOf items
  degEq : ∀ v, s.inDeg v = remIn items s.processed v + (vs.count v : Int)
  degZero : ∀ v, v ∈ s.queue ∨ v ∈ s.processed → s.inDeg v = 0
  levOrd : ∀ u ∈ s.processed, ∀ v ∈ adjOf items u, (u = u0 ∧ v ∈ vs) ∨ s.levels u < s.levels v
  levZero : ∀ w, (∀ u ∈ s.processed, w ∉ adjOf items u) → s.levels w = 0
  noCycle : ∀ v, OnCycle items v → v ∉ s.queue ∧ v ∉ s.processed

/-- A three-node instance whose nodes `b`, `c` form a cycle fed by the
acyclic node `a` (`a → b`, `b → c`, `c → b`). -/
def itemsFedCycle : Items :=
  [("a", { stakeholders := ["S"], next := ["b"] }),
   ("b", { stakeholders := ["S"], next := ["c"] }),
   ("c", { stakeholders := ["S"], next := ["b"] })]

/-- A pure two-node cycle `b → c → b` with no incoming acyclic edge. -/
def itemsPureCycle : Items :=
  [("b", { stakeholders := ["S"], next := ["c"] }),
   ("c", { stakeholders := ["S"], next := ["b"] })]

/-- A two-node chain `A → B`. -/
def itemsChain : Items :=
  [("A", { stakeholders := ["S"], next := ["B"] }),
   ("B", { stakeholders := ["S"], next := [] })]

-- ---------------------------------------------------------------------------
-- Kernel-computable rational arithmetic.  Mathlib's `Rat.mul` / `Rat.inv` are
-- opaque to the kernel, so the embedding uses these `Rat.divInt`-based
-- operations; `qadd_eq` … `qdiv_eq` below prove them equal to the field
-- operations of `ℚ`, which the proofs then use.
-- ---------------------------------------------------------------------------

/-- Addition on `ℚ` via `Rat.divInt` (kernel-computable). -/
def qadd (a b : ℚ) : ℚ := Rat.divInt (a.num * b.den + b.num * a.den) (a.den * b.den)

/-- Subtraction on `ℚ` via `Rat.divInt` (kernel-computable). -/
def qsub (a b : ℚ) : ℚ := Rat.divInt (a.num * b.den - b.num * a.den) (a.den * b.den)

/-- Multiplication on `ℚ` via `Rat.divInt` (kernel-computable). -/
def qmul (a b : ℚ) : ℚ := Rat.divInt (a.num * b.num) (a.den * b.den)

/-- Division on `ℚ` via `Rat.divInt` (kernel-computable). -/
def qdiv (a b : ℚ) : ℚ := Rat.divInt (a.num * b.den) (a.den * b.num)

/-- Python `int(x)` on an exact rational: truncation toward zero, i.e.
t-division of the numerator by the denominator. -/
def pyInt (q : ℚ) : Int := q.num.tdiv (q.den : Int)

/-- Python string comparison `a < b`: lexicographic on code points,
structurally recursive (Lean's own `String.decidableLT` is kernel-opaque). -/
def charListLt : List Char → List Char → Bool
  | [], [] => false
  | [], _ :: _ => true
  | _ :: _, [] => false
  | a :: as, b :: bs =>
    if a.toNat < b.toNat then true
    else if b.toNat < a.toNat then false
    else charListLt as bs

/-- `a < b` on strings, code-point lexicographic (as in Python). -/
def strLt (a b : String) : Bool := charListLt a.data b.data

-- ---------------------------------------------------------------------------
-- `create_drawio_xml`: layout constants, geometry, and the document model.
-- ---------------------------------------------------------------------------

/-- `x_start` (px). -/
def xStart : Nat := 50
/-- `y_start` (px). -/
def yStart : Nat := 50
/-- `item_width` (px). -/
def itemWidth : Nat := 160
/-- `item_height` (px). -/
def itemHeight : Nat := 60
/-- `vertical_spacing`: px between BFS levels. -/
def verticalSpacing : Nat := 100
/-- `h_padding`: px between sibling nodes in the same slot. -/
def hPadding : Nat := 20
/-- `lane_header_height`: lane label strip height. -/
def laneHeaderHeight : Nat := 30
/-- `pool_header_height`: pool label strip height. -/
def poolHeaderHeight : Nat := 40
/-- `inter_pool_gap`: gap between pools. -/
def interPoolGap : Nat := 100
/-- `node_slot_width = item_width + h_padding`. -/
def nodeSlotWidth : Nat := itemWidth + hPadding

/-- The `MULTI_COLORS` palette for multi-stakeholder node groups. -/
def MULTI_COLORS : List String :=
  ["#fff2cc", "#d5e8d4", "#ffe6cc", "#e1d5e7", "#dae8fc",
   "#f8cecc", "#fff9c4", "#c8e6c9", "#ffe0b2", "#e8daef"]

/-- The pool cell style string. -/
def poolStyle : String :=
  "swimlane;whiteSpace=wrap;html=1;childLayout=stackLayout;horizontal=1;startSize=40;horizontalStack=1;stackSpacing=0;stackAnywhere=0;collapsible=1;dropTarget=0;fontStyle=1;fontSize=14;fillColor=#dae8fc;strokeColor=#6c8ebf;"

/-- The lane cell style string. -/
def laneStyle : String :=
  "swimlane;html=1;startSize=30;container=1;collapsible=0;dropTarget=0;fontStyle=1;fillColor=#f5f5f5;strokeColor=#666666;"

/-- The node cell style string, parameterized by the fill color. -/
def nodeStyle (fill : String) : String :=
  "rounded=1;whiteSpace=wrap;html=1;fillColor=" ++ fill ++ ";strokeColor=#333333;fontSize=11;arcSize=10;"

/-- The flow-arrow style string. -/
def flowStyle : String :=
  "edgeStyle=orthogonalEdgeStyle;rounded=1;orthogonalLoop=1;jettySize=auto;html=1;strokeColor=#444444;curved=0;exitX=0.5;exitY=1;exitDx=0;exitDy=0;entryX=0.5;entryY=0;entryDx=0;entryDy=0;"

/-- Python `x.replace("_", " ")` for the one-character pattern used here. -/
def replaceUnderscores (s : String) : String :=
  ⟨s.data.map (fun c => if c = '_' then ' ' else c)⟩

/-- Python `item_id.split(":")[-1]`: the suffix after the last colon (the
whole string when there is none). -/
def afterLastColon (s : String) : String :=
  ⟨(s.data.reverse.takeWhile (fun c => !(c == ':'))).reverse⟩

/-- The first-seen collection of stakeholder names across all items
(duplicates suppressed), before sorting. -/
def collectStakeholders (items : Items) : List String :=
  items.foldl (fun acc p => p.2.stakeholders.foldl
    (fun a sh => if sh ∈ a then a else a ++ [sh]) acc) []

/-- Insert into a sorted list (used to model Python `sorted`; the input is
duplicate-free, so stability is moot). -/
def insertSorted (a : String) : List String → List String
  | [] => [a]
  | b :: rest => if strLt a b then a :: b :: rest else b :: insertSorted a rest

/-- Insertion sort by code-point order — the order `sorted` uses on the
duplicate-free stakeholder list. -/
def sortStrings : List String → List String
  | [] => []
  | a :: rest => insertSorted a (sortStrings rest)

/-- `all_stakeholders = sorted(all_stakeholders)`: the lane set, in
lexicographic order. -/
def allStakeholders (items : Items) : List String :=
  sortStrings (collectStakeholders items)

/-- `lane_level_counts[sh][lvl]`: each item at level `lvl` contributes one
count per occurrence of `sh` in its stakeholder list. -/
def laneLevelCounts (items : Items) (levels : String → Nat) (sh : String) (lvl : Nat) : Nat :=
  (items.map (fun p => if levels p.1 = lvl then p.2.stakeholders.count sh else 0)).sum

/-- `max_nodes_per_lane[sh] = max(lane_level_counts[sh].values()) if
lane_level_counts[sh] else 1`.  The fold ranges over the level of every item;
levels of items lacking `sh` contribute a count that either is `0` or equals
a genuine dict value, so the maximum agrees with Python's maximum over the
dict values whenever `sh` occurs at all (the `any` branch). -/
def maxNodesPerLane (items : Items) (levels : String → Nat) (sh : String) : Nat :=
  if items.any (fun p => decide (sh ∈ p.2.stakeholders)) then
    (items.map (fun p => laneLevelCounts items levels sh (levels p.1))).foldr max 0
  else 1

/-- `lane_widths[sh] = max_nodes_per_lane[sh] * node_slot_width + h_padding`. -/
def laneWidth (items : Items) (levels : String → Nat) (sh : String) : Nat :=
  maxNodesPerLane items levels sh * nodeSlotWidth + hPadding

/-- `max_level = max(item_levels.values())` (the fold with default `0` agrees
because levels are naturals and the caller only reaches this with a
non-empty dict). -/
def maxLevel (items : Items) (levels : String → Nat) : Nat :=
  (items.map (fun p => levels p.1)).foldr max 0

/-- `slot_width = lw / total` as an exact rational (Python computes it in
floating point; the float is the rounding of this exact value). -/
def slotWidth (items : Items) (levels : String → Nat) (sh : String) (lvl : Nat) : ℚ :=
  qdiv ((laneWidth items levels sh : Nat) : ℚ) ((laneLevelCounts items levels sh lvl : Nat) : ℚ)

/-- `x_pos = slot_width * slot_index + (slot_width - item_width) / 2` as an
exact rational. -/
def xPosQ (items : Items) (levels : String → Nat) (sh : String) (lvl slotIndex : Nat) : ℚ :=
  qadd (qmul (slotWidth items levels sh lvl) ((slotIndex : Nat) : ℚ))
    (qdiv (qsub (slotWidth items levels sh lvl) ((itemWidth : Nat) : ℚ)) ((2 : Nat) : ℚ))

/-- `y_pos = lane_header_height + 10 + lvl * vertical_spacing`. -/
def yPosOf (lvl : Nat) : Nat := laneHeaderHeight + 10 + lvl * verticalSpacing

/-- The kind of a child of the `<root>` element. -/
inductive CellKind
  | base
  | pool
  | lane
  | node
  | edge
deriving Repr, DecidableEq

/-- An `mxGeometry` child: x, y, width, height. -/
structure Geom where
  gx : Int
  gy : Int
  gw : Int
  gh : Int
deriving Repr, DecidableEq

/-- One child of the `<root>` element (an `mxCell`, or an `<object>` wrapper
carrying a tooltip around an `mxCell`; the wrapper holds the id and label). -/
structure Cell where
  kind : CellKind
  id : String
  value : String
  style : String
  parent : String
  source : String
  target : String
  tooltip : Option String
  geom : Option Geom
deriving Repr, DecidableEq

/-- `<mxCell id="0"/>`. -/
def cell0 : Cell :=
  { kind := .base, id := "0", value := "", style := "", parent := "",
    source := "", target := "", tooltip := none, geom := none }

/-- `<mxCell id="1" parent="0"/>`. -/
def cell1 : Cell :=
  { kind := .base, id := "1", value := "", style := "", parent := "0",
    source := "", target := "", tooltip := none, geom := none }

/-- The document: the diagram element's id and the children of `<root>` in
emission order. -/
structure Doc where
  diagramId : String
  cells : List Cell
deriving Repr, DecidableEq

/-- Per-procedure emission state threaded through the node-placement loop:
the uuid-stream cursor `k`, the `lane_level_placed` counters, and the global
`id_map`, `multi_item_color` and `color_counter`. -/
structure EmitSt where
  k : Nat
  placed : List ((String × Nat) × Nat)
  idMap : List (String × List (String × String))
  colorMap : List (String × String)
  colorCounter : Nat

/-- Global emitter state threaded across procedures: uuid cursor, running
`current_x`, `id_map`, color state, and the cells emitted so far. -/
structure PState where
  k : Nat
  currentX : Int
  idMap : List (String × List (String × String))
  colorMap : List (String × String)
  colorCounter : Nat
  cells : List Cell

/-- The lane-cell loop: one lane per sorted stakeholder, accumulating
`acc_lane_x` and recording `lane_ids`. -/
def emitLanes (σ : Nat → String) (poolId : String) (poolH : Nat) (items : Items)
    (levels : String → Nat) :
    List String → Nat → Nat → (List Cell × List (String × String) × Nat)
  | [], _, k => ([], [], k)
  | sh :: rest, accX, k =>
    let laneId := σ k
    let lw := laneWidth items levels sh
    let c : Cell :=
      { kind := .lane, id := laneId, value := sh, style := laneStyle,
        parent := poolId, source := "", target := "", tooltip := none,
        geom := some { gx := (accX : Int), gy := (poolHeaderHeight : Int),
                       gw := (lw : Int), gh := (poolH : Int) - (poolHeaderHeight : Int) } }
    let r := emitLanes σ poolId poolH items levels rest (accX + lw) (k + 1)
    (c :: r.1, (sh, laneId) :: r.2.1, r.2.2)

/-- The `for sh_name in item_meta["stakeholders"]` loop: one visual copy per
stakeholder, taking the next slot of the (lane, level) cell and recording
`id_map[item_id][sh_name]`. -/
def emitCopies (σ : Nat → String) (items : Items) (levels : String → Nat)
    (laneIds : List (String × String)) (tt : Option String)
    (itemId cleanName fill : String) (lvl : Nat) :
    List String → EmitSt → (List Cell × EmitSt)
  | [], st => ([], st)
  | sh :: rest, st =>
    let slotIndex := (dictGet? st.placed (sh, lvl)).getD 0
    let placed2 := dictSet st.placed (sh, lvl) (slotIndex + 1)
    let nodeUuid := σ st.k
    let idMap2 := dictUpdate st.idMap itemId (fun inner => dictSet inner sh nodeUuid)
    let c : Cell :=
      { kind := .node, id := nodeUuid, value := cleanName, style := nodeStyle fill,
        parent := (dictGet? laneIds sh).getD "", source := "", target := "",
        tooltip := tt,
        geom := some { gx := pyInt (xPosQ items levels sh lvl slotIndex),
                       gy := (yPosOf lvl : Int), gw := (itemWidth : Int),
                       gh := (itemHeight : Int) } }
    let r := emitCopies σ items levels laneIds tt itemId cleanName fill lvl rest
      { k := st.k + 1, placed := placed2, idMap := idMap2,
        colorMap := st.colorMap, colorCounter := st.colorCounter }
    (c :: r.1, r.2)

/-- `if is_multi and item_id not in multi_item_color: bind the next palette
color and bump the counter`. -/
def colorBindStep (itemId : String) (isMulti : Bool) (st : EmitSt) : EmitSt :=
  if isMulti && (dictGet? st.colorMap itemId).isNone then
    { st with
      colorMap := dictSet st.colorMap itemId
        (MULTI_COLORS.getD (st.colorCounter % MULTI_COLORS.length) ""),
      colorCounter := st.colorCounter + 1 }
  else st

/-- `id_map.setdefault(item_id, {})`. -/
def setdefaultStep (itemId : String) (st : EmitSt) : EmitSt :=
  if (dictGet? st.idMap itemId).isSome then st
  else { st with idMap := st.idMap ++ [(itemId, [])] }

/-- The `for item_id, item_meta in items.items()` placement loop: color
binding for multi-stakeholder items, `id_map.setdefault`, then one copy per
stakeholder. -/
def emitItems (σ : Nat → String) (items : Items) (levels : String → Nat)
    (laneIds : List (String × String)) (tooltips : List (String × String)) :
    Items → EmitSt → (List Cell × EmitSt)
  | [], st => ([], st)
  | (itemId, meta) :: rest, st =>
    let lvl := levels itemId
    let cleanName := replaceUnderscores (afterLastColon itemId)
    let tt := dictGet? tooltips itemId
    let isMulti := decide (meta.stakeholders.length > 1)
    let st2 := setdefaultStep itemId (colorBindStep itemId isMulti st)
    let fill := if isMulti then (dictGet? st2.colorMap itemId).getD "" else "#ffffff"
    let r1 := emitCopies σ items levels laneIds tt itemId cleanName fill lvl
      meta.stakeholders st2
    let r2 := emitItems σ items levels laneIds tooltips rest r1.2
    (r1.1 ++ r2.1, r2.2)

/-- One procedure: skip if it has no items, otherwise emit the pool cell, the
lane cells, and the node copies, and advance `current_x`. -/
def emitProc (σ : Nat → String) (tooltips : List (String × String)) (milestoneId : String)
    (items : Items) (pst : PState) : PState :=
  if items.isEmpty then pst else
  let levels := calculate_vertical_order items
  let allSh := allStakeholders items
  let poolW := (allSh.map (laneWidth items levels)).sum
  let poolH := (maxLevel items levels + 1) * verticalSpacing + laneHeaderHeight + 60
  let poolId := σ pst.k
  let poolCell : Cell :=
    { kind := .pool, id := poolId, value := replaceUnderscores milestoneId,
      style := poolStyle, parent := "1", source := "", target := "",
      tooltip := dictGet? tooltips milestoneId,
      geom := some { gx := pst.currentX, gy := (yStart : Int), gw := (poolW : Int),
                     gh := (poolH : Int) } }
  let lanesR := emitLanes σ poolId poolH items levels allSh 0 (pst.k + 1)
  let itemsR := emitItems σ items levels lanesR.2.1 tooltips items
    { k := lanesR.2.2, placed := [], idMap := pst.idMap,
      colorMap := pst.colorMap, colorCounter := pst.colorCounter }
  { k := itemsR.2.k
    currentX := pst.currentX + (poolW : Int) + (interPoolGap : Int)
    idMap := itemsR.2.idMap
    colorMap := itemsR.2.colorMap
    colorCounter := itemsR.2.colorCounter
    cells := pst.cells ++ [poolCell] ++ lanesR.1 ++ itemsR.1 }

/-- The `for milestone_id, content in structured_data.items()` loop. -/
def procsPass (σ : Nat → String) (tooltips : List (String × String)) :
    DataStruct → PState → PState
  | [], pst => pst
  | (mId, items) :: rest, pst => procsPass σ tooltips rest (emitProc σ tooltips mId items pst)

/-- Inner edge loop: one edge from a fixed source copy to every target
copy. -/
def emitEdgesTo (σ : Nat → String) (uuidSrc : String) :
    List (String × String) → Nat → (List Cell × Nat)
  | [], k => ([], k)
  | (_, uuidTgt) :: rest, k =>
    let c : Cell :=
      { kind := .edge, id := σ k, value := "", style := flowStyle, parent := "1",
        source := uuidSrc, target := uuidTgt, tooltip := none, geom := none }
    let r := emitEdgesTo σ uuidSrc rest (k + 1)
    (c :: r.1, r.2)

/-- `for uuid_src in src_copies.values(): for uuid_tgt in tgt_copies.values()`:
the full Cartesian product of copies. -/
def emitProduct (σ : Nat → String) (tgtCopies : List (String × String)) :
    List (String × String) → Nat → (List Cell × Nat)
  | [], k => ([], k)
  | (_, uuidSrc) :: rest, k =>
    let r1 := emitEdgesTo σ uuidSrc tgtCopies k
    let r2 := emitProduct σ tgtCopies rest r1.2
    (r1.1 ++ r2.1, r2.2)

/-- The edges emitted for one occurrence of `target_id` in `item_id`'s `next`
sequence: nothing if either id is missing from `id_map` (the `continue`),
otherwise the full product of copies. -/
def edgesForOccurrence (σ : Nat → String) (idMap : List (String × List (String × String)))
    (itemId targetId : String) (k : Nat) : List Cell × Nat :=
  match dictGet? idMap itemId, dictGet? idMap targetId with
  | some srcCopies, some tgtCopies => emitProduct σ tgtCopies srcCopies k
  | _, _ => ([], k)

/-- `for target_id in item_meta["next"]` (each occurrence separately). -/
def edgePassTargets (σ : Nat → String) (idMap : List (String × List (String × String)))
    (itemId : String) : List String → Nat → (List Cell × Nat)
  | [], k => ([], k)
  | tgt :: rest, k =>
    let r1 := edgesForOccurrence σ idMap itemId tgt k
    let r2 := edgePassTargets σ idMap itemId rest r1.2
    (r1.1 ++ r2.1, r2.2)

/-- `for item_id, item_meta in content["items"].items()` of the edge pass. -/
def edgePassItems (σ : Nat → String) (idMap : List (String × List (String × String))) :
    Items → Nat → (List Cell × Nat)
  | [], k => ([], k)
  | (itemId, meta) :: rest, k =>
    let r1 := edgePassTargets σ idMap itemId meta.next k
    let r2 := edgePassItems σ idMap rest r1.2
    (r1.1 ++ r2.1, r2.2)

/-- The global second pass over all procedures that materializes the flow
arrows. -/
def edgePass (σ : Nat → String) (idMap : List (String × List (String × String))) :
    DataStruct → Nat → (List Cell × Nat)
  | [], k => ([], k)
  | (_, items) :: rest, k =>
    let r1 := edgePassItems σ idMap items k
    let r2 := edgePass σ idMap rest r1.2
    (r1.1 ++ r2.1, r2.2)

/-- The whole of `create_drawio_xml` except serialization: the diagram id is
the first fresh uuid, the two base cells open the root, the procedure pass
emits pools/lanes/nodes, and the edge pass appends the arrows.  Returns the
document together with the final emitter state (for stating invariants). -/
def buildDoc (σ : Nat → String) (structured : DataStruct)
    (tooltips : List (String × String)) : Doc × PState :=
  let pst0 : PState :=
    { k := 1, currentX := (xStart : Int), idMap := [], colorMap := [],
      colorCounter := 0, cells := [cell0, cell1] }
  let pst1 := procsPass σ tooltips structured pst0
  let er := edgePass σ pst1.idMap structured pst1.k
  ({ diagramId := σ 0, cells := pst1.cells ++ er.1 },
   { pst1 with k := er.2, cells := pst1.cells ++ er.1 })

/-- `create_drawio_xml`, as the document it serializes. -/
def create_drawio_xml (σ : Nat → String) (structured : DataStruct)
    (tooltips : List (String × String)) : Doc :=
  (buildDoc σ structured tooltips).1

/-- The final `id_map` of a run of `create_drawio_xml`. -/
def idMapOf (σ : Nat → String) (structured : DataStruct)
    (tooltips : List (String × String)) : List (String × List (String × String)) :=
  (buildDoc σ structured tooltips).2.idMap

/-- The final `multi_item_color` binding of a run of `create_drawio_xml`. -/
def colorMapOf (σ : Nat → String) (structured : DataStruct)
    (tooltips : List (String × String)) : List (String × String) :=
  (buildDoc σ structured tooltips).2.colorMap

/-- Blank out every identifier reference of a cell (its own id, its parent,
and its edge endpoints); what remains is the id-independent content. -/
def eraseCell (c : Cell) : Cell :=
  { c with id := "", parent := "", source := "", target := "" }

/-- Number of cells of a given kind in a document. -/
def countKind (d : Doc) (kk : CellKind) : Nat :=
  (d.cells.filter (fun c => decide (c.kind = kk))).length

/-- All item identifiers across all procedures of a `structured_data`. -/
def allItemIds (structured : DataStruct) : List String :=
  structured.flatMap (fun p => keysOf p.2)

/-- One procedure with a 2-stakeholder item pointing at a 3-stakeholder
item. -/
def sdPair : DataStruct :=
  [("P", [("u", { stakeholders := ["A", "B"], next := ["v"] }),
          ("v", { stakeholders := ["C", "D", "E"], next := [] })])]

/-- Two procedures with a cross-procedure `next` reference `u → v`. -/
def sdCross : DataStruct :=
  [("P1", [("u", { stakeholders := ["A"], next := ["v"] })]),
   ("P2", [("v", { stakeholders := ["B", "C"], next := [] })])]

/-- A minimal one-procedure, one-item input. -/
def sdOne : DataStruct := [("P", [("i", { stakeholders := ["A"], next := [] })])]

/-- Every identifier stored in `id_map` is the id of some node cell already
emitted. -/
def IdMapCovered (idMap : List (String × List (String × String))) (cells : List Cell) : Prop :=
  ∀ i inner, (i, inner) ∈ idMap → ∀ sh uid, (sh, uid) ∈ inner →
    ∃ c ∈ cells, c.kind = CellKind.node ∧ c.id = uid

/-- The key list of an ordered dict after `d[k] = v`: unchanged if present,
appended otherwise. -/
def keyInsert (k : String) : List String → List String
  | [] => [k]
  | k1 :: rest => if k1 = k then k1 :: rest else k1 :: keyInsert k rest

/-- The identifier-free shape of `id_map`: which items are bound to which
stakeholder keys (without the uuids). -/
def idMapShape (idMap : List (String × List (String × String))) : List (String × List String) :=
  idMap.map (fun p => (p.1, p.2.map Prod.fst))

/-- What every edge cell looks like after erasing its identifiers. -/
def erasedEdgeCell : Cell :=
  { kind := .edge, id := "", value := "", style := flowStyle, parent := "",
    source := "", target := "", tooltip := none, geom := none }

/-- A two-triple input for the whole-pipeline determinism counterexample. -/
def pipelineTriples : List (String × String × String) :=
  [("P", "hasSequencedItem", "i"), ("i", "hasStakeholder", "A")]

/-- The graph `parse_data` produces for `pipelineTriples`. -/
def dsPipe : DataStruct := [("P", [("i", { stakeholders := ["A"], next := [] })])]

/-- Two items sharing one stakeholder and one rank: a (lane, rank) cell with
two occupants. -/
def itemsTwo : Items :=
  [("a", { stakeholders := ["S"], next := [] }),
   ("b", { stakeholders := ["S"], next := [] })]

/-- Stream-independence relation between the per-procedure emitter states of
two runs: everything except the concrete uuids stored inside `id_map`
agrees. -/
def EmitRel (st1 st2 : EmitSt) : Prop :=
  st1.k = st2.k ∧ st1.placed = st2.placed ∧
  idMapShape st1.idMap = idMapShape st2.idMap ∧
  st1.colorMap = st2.colorMap ∧ st1.colorCounter = st2.colorCounter

/-- Stream-independence relation between the global emitter states of two
runs: the uuid cursor, layout cursor and color state agree, `id_map` agrees
up to uuids, and the emitted cells agree after erasing identifiers. -/
def PRel (p1 p2 : PState) : Prop :=
  p1.k = p2.k ∧ p1.currentX = p2.currentX ∧
  idMapShape p1.idMap = idMapShape p2.idMap ∧
  p1.colorMap = p2.colorMap ∧ p1.colorCounter = p2.colorCounter ∧
  p1.cells.map eraseCell = p2.cells.map eraseCell

-- ===========================================================================
-- Theorems
-- ===========================================================================

theorem dictGet?_dictSet_self {κ α : Type} [DecidableEq κ] (l : List (κ × α)) (k : κ) (v : α) :
    dictGet? (dictSet l k v) k = some v := by
  induction l with
  | nil => simp [dictSet, dictGet?]
  | cons p rest ih =>
    by_cases h : p.1 = k
    · simp [dictSet, dictGet?, h]
    · simp [dictSet, dictGet?, h, ih]

theorem dictGet?_dictSet_ne {κ α : Type} [DecidableEq κ] (l : List (κ × α)) (k k2 : κ) (v : α)
    (h : k2 ≠ k) : dictGet? (dictSet l k v) k2 = dictGet? l k2 := by
  induction l with
  | nil => simp [dictSet, dictGet?, Ne.symm h]
  | cons p rest ih =>
    obtain ⟨k1, v1⟩ := p
    by_cases h1 : k1 = k
    · subst h1
      simp [dictSet, dictGet?, Ne.symm h]
    · simp only [dictSet, if_neg h1, dictGet?, ih]

theorem dictGet?_dictUpdate_self {κ α : Type} [DecidableEq κ] (l : List (κ × α)) (k : κ)
    (f : α → α) : dictGet? (dictUpdate l k f) k = (dictGet? l k).map f := by
  induction l with
  | nil => simp [dictUpdate, dictGet?]
  | cons p rest ih =>
    by_cases h : p.1 = k
    · simp [dictUpdate, dictGet?, h]
    · simp only [dictUpdate, if_neg h, dictGet?, ih]

theorem dictGet?_dictUpdate_ne {κ α : Type} [DecidableEq κ] (l : List (κ × α)) (k k2 : κ)
    (f : α → α) (h : k2 ≠ k) : dictGet? (dictUpdate l k f) k2 = dictGet? l k2 := by
  induction l with
  | nil => simp [dictUpdate, dictGet?]
  | cons p rest ih =>
    obtain ⟨k1, v1⟩ := p
    by_cases h1 : k1 = k
    · subst h1
      simp [dictUpdate, dictGet?, Ne.symm h]
    · simp only [dictUpdate, if_neg h1, dictGet?, ih]

theorem dictGet?_append {κ α : Type} [DecidableEq κ] (l1 l2 : List (κ × α)) (k : κ) :
    dictGet? (l1 ++ l2) k = (dictGet? l1 k).or (dictGet? l2 k) := by
  induction l1 with
  | nil => simp [dictGet?]
  | cons p rest ih =>
    by_cases h : p.1 = k
    · simp [dictGet?, h]
    · simp [dictGet?, h, ih]

theorem mem_dictSet {κ α : Type} [DecidableEq κ] (l : List (κ × α)) (k k2 : κ) (v v2 : α)
    (h : (k2, v2) ∈ dictSet l k v) : (k2, v2) ∈ l ∨ (k2 = k ∧ v2 = v) := by
  induction l with
  | nil => simp [dictSet] at h; exact Or.inr ⟨h.1, h.2⟩
  | cons p rest ih =>
    obtain ⟨k1, v1⟩ := p
    by_cases h1 : k1 = k
    · rw [dictSet, if_pos h1] at h
      rcases List.mem_cons.mp h with h2 | h2
      · rw [Prod.mk.injEq] at h2
        exact Or.inr h2
      · exact Or.inl (List.mem_cons_of_mem _ h2)
    · rw [dictSet, if_neg h1] at h
      rcases List.mem_cons.mp h with h2 | h2
      · exact Or.inl (List.mem_cons.mpr (Or.inl h2))
      · rcases ih h2 with h3 | h3
        · exact Or.inl (List.mem_cons_of_mem _ h3)
        · exact Or.inr h3

theorem mem_dictUpdate {κ α : Type} [DecidableEq κ] (l : List (κ × α)) (k k2 : κ) (f : α → α)
    (v2 : α) (h : (k2, v2) ∈ dictUpdate l k f) :
    (k2, v2) ∈ l ∨ ∃ v0, (k2, v0) ∈ l ∧ k2 = k ∧ v2 = f v0 := by
  induction l with
  | nil => simp [dictUpdate] at h
  | cons p rest ih =>
    obtain ⟨k1, v1⟩ := p
    by_cases h1 : k1 = k
    · rw [dictUpdate, if_pos h1] at h
      rcases List.mem_cons.mp h with h2 | h2
      · rw [Prod.mk.injEq] at h2
        refine Or.inr ⟨v1, ?_, h2.1.trans h1, h2.2⟩
        rw [h2.1]
        exact List.mem_cons.mpr (Or.inl rfl)
      · exact Or.inl (List.mem_cons_of_mem _ h2)
    · rw [dictUpdate, if_neg h1] at h
      rcases List.mem_cons.mp h with h2 | h2
      · exact Or.inl (List.mem_cons.mpr (Or.inl h2))
      · rcases ih h2 with h3 | ⟨v0, h3, h4, h5⟩
        · exact Or.inl (List.mem_cons_of_mem _ h3)
        · exact Or.inr ⟨v0, List.mem_cons_of_mem _ h3, h4, h5⟩

theorem parseStep_sourcetext (st : ParseState) (s p o : String)
    (hp : strLower (strStrip p) = "sourcetext") :
    parseStep st (s, p, o) =
      some { st with tooltips := dictSet st.tooltips (strStrip s) (strStrip o) } := by
  simp only [parseStep, hp]
  rw [if_pos trivial]

theorem parseStep_type (st : ParseState) (s p o : String)
    (hp : strLower (strStrip p) = "type") :
    parseStep st (s, p, o) =
      some (if (strStrip o) = "Procedure"
            then { st with dataStruct := ensureProcedure st.dataStruct (strStrip s) }
            else st) := by
  simp only [parseStep, hp]
  rw [if_neg (by decide)]
  by_cases ho : (strStrip o) = "Procedure"
  · rw [if_pos ⟨trivial, ho⟩, if_pos ho]
  · rw [if_neg (fun h2 => ho h2.2), if_neg ho, if_neg (by decide), if_neg (by decide),
        if_neg (by decide)]

theorem parseStep_seqitem (st : ParseState) (s p o : String)
    (hp : strLower (strStrip p) = "hassequenceditem") :
    parseStep st (s, p, o) = some (seqItemBranch st (strStrip s) (strStrip o)) := by
  simp only [parseStep, hp]
  rw [if_neg (by decide), if_neg (fun h2 => by exact absurd h2.1 (by decide)), if_pos trivial]

theorem parseStep_hasstakeholder (st : ParseState) (s p o : String)
    (hp : strLower (strStrip p) = "hasstakeholder") :
    parseStep st (s, p, o) = relBranch st (strStrip s) (addStakeholder (strStrip o)) := by
  simp only [parseStep, hp]
  rw [if_neg (by decide), if_neg (fun h2 => by exact absurd h2.1 (by decide)),
      if_neg (by decide), if_pos trivial]

theorem parseStep_hasnext (st : ParseState) (s p o : String)
    (hp : strLower (strStrip p) = "hasnext") :
    parseStep st (s, p, o) = relBranch st (strStrip s) (addNext (strStrip o)) := by
  simp only [parseStep, hp]
  rw [if_neg (by decide), if_neg (fun h2 => by exact absurd h2.1 (by decide)),
      if_neg (by decide), if_neg (by decide), if_pos trivial]

theorem parseStep_other (st : ParseState) (s p o : String)
    (h1 : strLower (strStrip p) ≠ "sourcetext") (h2 : strLower (strStrip p) ≠ "type")
    (h3 : strLower (strStrip p) ≠ "hassequenceditem") (h4 : strLower (strStrip p) ≠ "hasstakeholder")
    (h5 : strLower (strStrip p) ≠ "hasnext") :
    parseStep st (s, p, o) = some st := by
  simp only [parseStep]
  rw [if_neg h1, if_neg (fun h => h2 h.1), if_neg h3, if_neg h4, if_neg h5]

theorem isSome_dictUpdate {κ α : Type} [DecidableEq κ] (l : List (κ × α)) (k k2 : κ)
    (f : α → α) (h : (dictGet? l k2).isSome) : (dictGet? (dictUpdate l k f) k2).isSome := by
  by_cases h1 : k2 = k
  · subst h1
    rw [dictGet?_dictUpdate_self]
    cases hx : dictGet? l k2 with
    | none => rw [hx] at h; cases h
    | some v => rfl
  · rw [dictGet?_dictUpdate_ne l k k2 f h1]
    exact h

theorem isSome_append_left {κ α : Type} [DecidableEq κ] (l1 l2 : List (κ × α)) (k : κ)
    (h : (dictGet? l1 k).isSome) : (dictGet? (l1 ++ l2) k).isSome := by
  rw [dictGet?_append]
  cases hx : dictGet? l1 k with
  | none => rw [hx] at h; cases h
  | some v => rfl

theorem isSome_ensureProcedure (ds : DataStruct) (subj k : String)
    (h : (dictGet? ds k).isSome) : (dictGet? (ensureProcedure ds subj) k).isSome := by
  unfold ensureProcedure
  by_cases h1 : (dictGet? ds subj).isSome
  · rw [if_pos h1]; exact h
  · rw [if_neg h1]; exact isSome_append_left ds _ k h

theorem ensureProcedure_self (ds : DataStruct) (subj : String) :
    (dictGet? (ensureProcedure ds subj) subj).isSome := by
  unfold ensureProcedure
  by_cases h1 : (dictGet? ds subj).isSome
  · rw [if_pos h1]; exact h1
  · rw [if_neg h1, dictGet?_append]
    cases hx : dictGet? ds subj with
    | none => simp [dictGet?]
    | some v => rw [hx] at h1; exact absurd rfl h1

theorem relBranch_of_none (st : ParseState) (subj : String) (upd : ItemMeta → ItemMeta)
    (h : dictGet? st.itemToMilestone subj = none) : relBranch st subj upd = some st := by
  unfold relBranch
  rw [h]

theorem relBranch_cases (st : ParseState) (subj : String) (upd : ItemMeta → ItemMeta)
    (st2 : ParseState) (h : relBranch st subj upd = some st2) :
    st2 = st ∨ ∃ m, st2 =
      { st with dataStruct := dictUpdate st.dataStruct m (fun its2 => dictUpdate its2 subj upd) } := by
  rcases hm : dictGet? st.itemToMilestone subj with _ | m
  · rw [relBranch_of_none st subj upd hm] at h
    exact Or.inl (Option.some.inj h).symm
  · simp only [relBranch, hm] at h
    by_cases hme : m = ""
    · rw [if_pos hme] at h; exact Or.inl (Option.some.inj h).symm
    · rw [if_neg hme] at h
      rcases hds : dictGet? st.dataStruct m with _ | its
      · simp only [hds] at h
        exact Option.noConfusion h
      · simp only [hds] at h
        by_cases hit : (dictGet? its subj).isSome
        · rw [if_pos hit] at h
          exact Or.inr ⟨m, (Option.some.inj h).symm⟩
        · rw [if_neg hit] at h; exact Or.inl (Option.some.inj h).symm

theorem relBranch_isSome (st : ParseState) (subj : String) (upd : ItemMeta → ItemMeta)
    (h : ParseInv st) : (relBranch st subj upd).isSome := by
  rcases hm : dictGet? st.itemToMilestone subj with _ | m
  · simp [relBranch, hm]
  · simp only [relBranch, hm]
    by_cases hme : m = ""
    · rw [if_pos hme]; rfl
    · rw [if_neg hme]
      have h2 := h subj m hm
      rcases hds : dictGet? st.dataStruct m with _ | its
      · rw [hds] at h2; cases h2
      · simp only [hds]
        by_cases hit : (dictGet? its subj).isSome
        · rw [if_pos hit]; rfl
        · rw [if_neg hit]; rfl

theorem parseStep_preserves (st : ParseState) (t : String × String × String)
    (h : ParseInv st) : ∃ st2, parseStep st t = some st2 ∧ ParseInv st2 := by
  obtain ⟨s, p, o⟩ := t
  by_cases h1 : strLower (strStrip p) = "sourcetext"
  · exact ⟨_, parseStep_sourcetext st s p o h1, fun i m hm => h i m hm⟩
  by_cases h2 : strLower (strStrip p) = "type"
  · refine ⟨_, parseStep_type st s p o h2, ?_⟩
    by_cases ho : (strStrip o) = "Procedure"
    · rw [if_pos ho]
      exact fun i m hm => isSome_ensureProcedure _ _ _ (h i m hm)
    · rw [if_neg ho]
      exact h
  by_cases h3 : strLower (strStrip p) = "hassequenceditem"
  · refine ⟨_, parseStep_seqitem st s p o h3, ?_⟩
    intro i m hm
    by_cases hio : i = (strStrip o)
    · subst hio
      rw [show (seqItemBranch st (strStrip s) (strStrip o)).itemToMilestone =
            dictSet st.itemToMilestone (strStrip o) (strStrip s) from rfl,
          dictGet?_dictSet_self] at hm
      have hm2 : m = (strStrip s) := (Option.some.inj hm).symm
      subst hm2
      exact isSome_dictUpdate _ _ _ _ (ensureProcedure_self st.dataStruct (strStrip s))
    · rw [show (seqItemBranch st (strStrip s) (strStrip o)).itemToMilestone =
            dictSet st.itemToMilestone (strStrip o) (strStrip s) from rfl,
          dictGet?_dictSet_ne _ _ _ _ hio] at hm
      exact isSome_dictUpdate _ _ _ _ (isSome_ensureProcedure _ _ _ (h i m hm))
  by_cases h4 : strLower (strStrip p) = "hasstakeholder"
  · have h5 := relBranch_isSome st (strStrip s) (addStakeholder (strStrip o)) h
    rw [Option.isSome_iff_exists] at h5
    obtain ⟨st2, hst2⟩ := h5
    refine ⟨st2, (parseStep_hasstakeholder st s p o h4).trans hst2, ?_⟩
    rcases relBranch_cases st (strStrip s) (addStakeholder (strStrip o)) st2 hst2 with h6 | ⟨m0, h6⟩
    · subst h6; exact h
    · subst h6; exact fun i m hm => isSome_dictUpdate _ _ _ _ (h i m hm)
  by_cases h5 : strLower (strStrip p) = "hasnext"
  · have h6 := relBranch_isSome st (strStrip s) (addNext (strStrip o)) h
    rw [Option.isSome_iff_exists] at h6
    obtain ⟨st2, hst2⟩ := h6
    refine ⟨st2, (parseStep_hasnext st s p o h5).trans hst2, ?_⟩
    rcases relBranch_cases st (strStrip s) (addNext (strStrip o)) st2 hst2 with h7 | ⟨m0, h7⟩
    · subst h7; exact h
    · subst h7; exact fun i m hm => isSome_dictUpdate _ _ _ _ (h i m hm)
  exact ⟨st, parseStep_other st s p o h1 h2 h3 h4 h5, h⟩

theorem parseInit_inv : ParseInv parseInit := by
  intro i m hm
  simp [parseInit, dictGet?] at hm

theorem parseRun_append (ts : List (String × String × String)) (t : String × String × String) :
    parseRun (ts ++ [t]) = (parseRun ts).bind (fun st => parseStep st t) := by
  unfold parseRun
  rw [List.foldl_append]
  rfl

theorem parseRun_some (ts : List (String × String × String)) :
    ∃ st, parseRun ts = some st ∧ ParseInv st := by
  induction ts using List.reverseRecOn with
  | nil => exact ⟨parseInit, rfl, parseInit_inv⟩
  | append_singleton l t ih =>
    obtain ⟨st1, hrun, hinv⟩ := ih
    obtain ⟨st2, hstep, hinv2⟩ := parseStep_preserves st1 t hinv
    refine ⟨st2, ?_, hinv2⟩
    rw [parseRun_append, hrun]
    exact hstep

/-- C7: `parse_data` is total and never raises.  For every extracted triple
stream — including out-of-order triples and arbitrary subjects, predicates
and objects — the fold returns a `(graph, tooltips)` pair; in particular the
index `data_struct[milestone_id]` (the only fallible operation, modeled as a
lookup that would return `none` on a missing key) always succeeds, because
every milestone stored in `item_to_milestone` is a key of `data_struct`. -/
theorem parse_data_total (ts : List (String × String × String)) :
    (parse_data ts).isSome := by
  obtain ⟨st, hrun, -⟩ := parseRun_some ts
  rw [parse_data, hrun]
  rfl

theorem parseStep_itm (st st2 : ParseState) (s p o : String)
    (h : parseStep st (s, p, o) = some st2) :
    st2.itemToMilestone = st.itemToMilestone ∨
      (strLower (strStrip p) = "hassequenceditem" ∧
       st2.itemToMilestone = dictSet st.itemToMilestone (strStrip o) (strStrip s)) := by
  by_cases h1 : strLower (strStrip p) = "sourcetext"
  · rw [parseStep_sourcetext st s p o h1] at h
    rw [← Option.some.inj h]
    exact Or.inl rfl
  by_cases h2 : strLower (strStrip p) = "type"
  · rw [parseStep_type st s p o h2] at h
    rw [← Option.some.inj h]
    by_cases ho : (strStrip o) = "Procedure"
    · rw [if_pos ho]; exact Or.inl rfl
    · rw [if_neg ho]; exact Or.inl rfl
  by_cases h3 : strLower (strStrip p) = "hassequenceditem"
  · rw [parseStep_seqitem st s p o h3] at h
    rw [← Option.some.inj h]
    exact Or.inr ⟨h3, rfl⟩
  by_cases h4 : strLower (strStrip p) = "hasstakeholder"
  · rw [parseStep_hasstakeholder st s p o h4] at h
    rcases relBranch_cases st (strStrip s) (addStakeholder (strStrip o)) st2 h with h5 | ⟨m0, h5⟩
    · rw [h5]; exact Or.inl rfl
    · rw [h5]; exact Or.inl rfl
  by_cases h5 : strLower (strStrip p) = "hasnext"
  · rw [parseStep_hasnext st s p o h5] at h
    rcases relBranch_cases st (strStrip s) (addNext (strStrip o)) st2 h with h6 | ⟨m0, h6⟩
    · rw [h6]; exact Or.inl rfl
    · rw [h6]; exact Or.inl rfl
  · rw [parseStep_other st s p o h1 h2 h3 h4 h5] at h
    rw [← Option.some.inj h]
    exact Or.inl rfl

theorem itm_isSome_namesSeqItem (ts : List (String × String × String)) (st : ParseState)
    (h : parseRun ts = some st) (x : String)
    (hx : (dictGet? st.itemToMilestone x).isSome) : namesSeqItem ts x := by
  induction ts using List.reverseRecOn generalizing st with
  | nil =>
    have h2 : parseInit = st := Option.some.inj h
    rw [← h2] at hx
    simp [parseInit, dictGet?] at hx
  | append_singleton l t ih =>
    rw [parseRun_append] at h
    rcases hrun : parseRun l with _ | st1
    · rw [hrun] at h; exact Option.noConfusion h
    · rw [hrun, Option.some_bind] at h
      obtain ⟨s, p, o⟩ := t
      rcases parseStep_itm st1 st s p o h with h2 | ⟨hp, h2⟩
      · rw [h2] at hx
        obtain ⟨t0, ht0, hprop⟩ := ih st1 hrun hx
        exact ⟨t0, List.mem_append_left _ ht0, hprop⟩
      · rw [h2] at hx
        by_cases hxo : x = (strStrip o)
        · exact ⟨(s, p, o), List.mem_append_right _ (List.mem_singleton.mpr rfl),
            hp, hxo.symm⟩
        · rw [dictGet?_dictSet_ne _ _ _ _ hxo] at hx
          obtain ⟨t0, ht0, hprop⟩ := ih st1 hrun hx
          exact ⟨t0, List.mem_append_left _ ht0, hprop⟩

/-- C8: processing a `hasStakeholder` or `hasNext` triple whose subject item
has not been named (as object) by any `hasSequencedItem` triple earlier in
the stream is a no-op: the parser state — graph included — is left unchanged,
no stakeholder or successor is recorded, and no error is raised. -/
theorem parseRun_dropped_reference (ts : List (String × String × String)) (s p o : String)
    (hp : strLower (strStrip p) = "hasstakeholder" ∨ strLower (strStrip p) = "hasnext")
    (hno : ∀ t ∈ ts, ¬ (strLower (strStrip t.2.1) = "hassequenceditem" ∧ strStrip t.2.2 = (strStrip s))) :
    parseRun (ts ++ [(s, p, o)]) = parseRun ts := by
  rw [parseRun_append]
  rcases hrun : parseRun ts with _ | st
  · rfl
  · have hx : dictGet? st.itemToMilestone (strStrip s) = none := by
      rcases h2 : dictGet? st.itemToMilestone (strStrip s) with _ | m
      · rfl
      · obtain ⟨t0, ht0, hseq, hobj⟩ :=
          itm_isSome_namesSeqItem ts st hrun (strStrip s) (by rw [h2]; rfl)
        exact absurd ⟨hseq, hobj⟩ (hno t0 ht0)
    rcases hp with hp | hp
    · rw [Option.some_bind, parseStep_hasstakeholder st s p o hp,
          relBranch_of_none st (strStrip s) _ hx]
    · rw [Option.some_bind, parseStep_hasnext st s p o hp,
          relBranch_of_none st (strStrip s) _ hx]

/-- Witness for C8: a `hasStakeholder` triple arriving with no prior
`hasSequencedItem` triple for its subject leaves the parser state exactly as
it was. -/
theorem parseRun_dropped_reference_witness :
    (strLower (strStrip "hasStakeholder") = "hasstakeholder" ∨
      strLower (strStrip "hasStakeholder") = "hasnext") ∧
    parseRun ([] ++ [("i", "hasStakeholder", "A")]) = parseRun [] :=
  ⟨Or.inl (by decide),
    parseRun_dropped_reference [] "i" "hasStakeholder" "A" (Or.inl (by decide))
      (fun t ht => absurd ht (List.not_mem_nil t))⟩

theorem mem_ensureProcedure (ds : DataStruct) (subj m : String) (its : Items)
    (h : (m, its) ∈ ensureProcedure ds subj) : (m, its) ∈ ds ∨ its = [] := by
  unfold ensureProcedure at h
  by_cases h1 : (dictGet? ds subj).isSome
  · rw [if_pos h1] at h; exact Or.inl h
  · rw [if_neg h1] at h
    rcases List.mem_append.mp h with h2 | h2
    · exact Or.inl h2
    · have h3 := List.mem_singleton.mp h2
      rw [Prod.mk.injEq] at h3
      exact Or.inr h3.2

theorem stakeholders_from_triples (ts : List (String × String × String)) (st : ParseState)
    (h : parseRun ts = some st) :
    ∀ m its, (m, its) ∈ st.dataStruct → ∀ i meta, (i, meta) ∈ its →
      meta.stakeholders ≠ [] → stakeTriple ts i := by
  induction ts using List.reverseRecOn generalizing st with
  | nil =>
    have h2 : parseInit = st := Option.some.inj h
    rw [← h2]
    intro m its hm
    simp [parseInit] at hm
  | append_singleton l t ih =>
    rw [parseRun_append] at h
    rcases hrun : parseRun l with _ | st1
    · rw [hrun] at h; exact Option.noConfusion h
    · rw [hrun, Option.some_bind] at h
      obtain ⟨s, p, o⟩ := t
      intro m its hmits i meta himeta hne
      have weaken : stakeTriple l i → stakeTriple (l ++ [(s, p, o)]) i := by
        rintro ⟨t0, ht0, hp0⟩
        exact ⟨t0, List.mem_append_left _ ht0, hp0⟩
      by_cases h1 : strLower (strStrip p) = "sourcetext"
      · rw [parseStep_sourcetext st1 s p o h1] at h
        rw [← Option.some.inj h] at hmits
        exact weaken (ih st1 hrun m its hmits i meta himeta hne)
      by_cases h2 : strLower (strStrip p) = "type"
      · rw [parseStep_type st1 s p o h2] at h
        rw [← Option.some.inj h] at hmits
        by_cases ho : strStrip o = "Procedure"
        · rw [if_pos ho] at hmits
          rcases mem_ensureProcedure _ _ _ _ hmits with h3 | h3
          · exact weaken (ih st1 hrun m its h3 i meta himeta hne)
          · rw [h3] at himeta; exact absurd himeta (List.not_mem_nil _)
        · rw [if_neg ho] at hmits
          exact weaken (ih st1 hrun m its hmits i meta himeta hne)
      by_cases h3 : strLower (strStrip p) = "hassequenceditem"
      · rw [parseStep_seqitem st1 s p o h3] at h
        rw [← Option.some.inj h] at hmits
        rcases mem_dictUpdate _ _ _ _ _ hmits with h4 | ⟨its0, h4, hmeq, hitseq⟩
        · rcases mem_ensureProcedure _ _ _ _ h4 with h5 | h5
          · exact weaken (ih st1 hrun m its h5 i meta himeta hne)
          · rw [h5] at himeta; exact absurd himeta (List.not_mem_nil _)
        · rcases mem_ensureProcedure _ _ _ _ h4 with h5 | h5
          · -- its = its0 possibly extended by the fresh empty item
            by_cases h6 : (dictGet? its0 (strStrip o)).isSome
            · rw [hitseq, if_pos h6] at himeta
              exact weaken (ih st1 hrun m its0 h5 i meta himeta hne)
            · rw [hitseq, if_neg h6] at himeta
              rcases List.mem_append.mp himeta with h7 | h7
              · exact weaken (ih st1 hrun m its0 h5 i meta h7 hne)
              · have h8 := List.mem_singleton.mp h7
                rw [Prod.mk.injEq] at h8
                rw [h8.2] at hne
                exact absurd rfl hne
          · rw [h5] at hitseq
            by_cases h6 : (dictGet? ([] : Items) (strStrip o)).isSome
            · rw [hitseq, if_pos h6] at himeta
              exact absurd himeta (List.not_mem_nil _)
            · rw [hitseq, if_neg h6] at himeta
              rcases List.mem_append.mp himeta with h7 | h7
              · exact absurd h7 (List.not_mem_nil _)
              · have h8 := List.mem_singleton.mp h7
                rw [Prod.mk.injEq] at h8
                rw [h8.2] at hne
                exact absurd rfl hne
      by_cases h4 : strLower (strStrip p) = "hasstakeholder"
      · rw [parseStep_hasstakeholder st1 s p o h4] at h
        rcases relBranch_cases st1 (strStrip s) (addStakeholder (strStrip o)) st h with h5 | ⟨m0, h5⟩
        · rw [h5] at hmits
          exact weaken (ih st1 hrun m its hmits i meta himeta hne)
        · rw [h5] at hmits
          rcases mem_dictUpdate _ _ _ _ _ hmits with h6 | ⟨its0, h6, hmeq, hitseq⟩
          · exact weaken (ih st1 hrun m its h6 i meta himeta hne)
          · rw [hitseq] at himeta
            rcases mem_dictUpdate _ _ _ _ _ himeta with h7 | ⟨meta0, h7, hieq, hmetaeq⟩
            · exact weaken (ih st1 hrun m its0 h6 i meta h7 hne)
            · by_cases h8 : strStrip o ∈ meta0.stakeholders
              · rw [hmetaeq, addStakeholder, if_pos h8] at hne
                exact weaken (ih st1 hrun m its0 h6 i meta0 h7 hne)
              · exact ⟨(s, p, o), List.mem_append_right _ (List.mem_singleton.mpr rfl),
                  h4, hieq.symm⟩
      by_cases h5 : strLower (strStrip p) = "hasnext"
      · rw [parseStep_hasnext st1 s p o h5] at h
        rcases relBranch_cases st1 (strStrip s) (addNext (strStrip o)) st h with h6 | ⟨m0, h6⟩
        · rw [h6] at hmits
          exact weaken (ih st1 hrun m its hmits i meta himeta hne)
        · rw [h6] at hmits
          rcases mem_dictUpdate _ _ _ _ _ hmits with h7 | ⟨its0, h7, hmeq, hitseq⟩
          · exact weaken (ih st1 hrun m its h7 i meta himeta hne)
          · rw [hitseq] at himeta
            rcases mem_dictUpdate _ _ _ _ _ himeta with h8 | ⟨meta0, h8, hieq, hmetaeq⟩
            · exact weaken (ih st1 hrun m its0 h7 i meta h8 hne)
            · rw [hmetaeq] at hne
              exact weaken (ih st1 hrun m its0 h7 i meta0 h8 hne)
      · rw [parseStep_other st1 s p o h1 h2 h3 h4 h5] at h
        rw [← Option.some.inj h] at hmits
        exact weaken (ih st1 hrun m its hmits i meta himeta hne)

/-- C9: after `parse_data` returns, every item's stakeholder list is
non-empty, and an item for which the stream contains no `hasStakeholder`
triple ends up with exactly the single sentinel stakeholder
`"Unassigned"`. -/
theorem parse_data_stakeholders_nonempty (ts : List (String × String × String))
    (ds : DataStruct) (tt : List (String × String))
    (h : parse_data ts = some (ds, tt)) (m : String) (its : Items)
    (hm : (m, its) ∈ ds) (i : String) (meta : ItemMeta) (hi : (i, meta) ∈ its) :
    meta.stakeholders ≠ [] ∧
      ((∀ t ∈ ts, ¬ (strLower (strStrip t.2.1) = "hasstakeholder" ∧ strStrip t.1 = i)) →
        meta.stakeholders = ["Unassigned"]) := by
  rcases hrun : parseRun ts with _ | st
  · rw [parse_data, hrun] at h; exact Option.noConfusion h
  · rw [parse_data, hrun, Option.map_some'] at h
    have hds : ds = applyFallback st.dataStruct := (congrArg Prod.fst (Option.some.inj h)).symm
    rw [hds] at hm
    obtain ⟨p0, hp0, hpeq⟩ := List.mem_map.mp hm
    rw [Prod.mk.injEq] at hpeq
    rw [← hpeq.2] at hi
    obtain ⟨q0, hq0, hqeq⟩ := List.mem_map.mp hi
    rw [Prod.mk.injEq] at hqeq
    constructor
    · rw [← hqeq.2]
      by_cases hz : q0.2.stakeholders = []
      · rw [if_pos hz]; intro hcon; cases hcon
      · rw [if_neg hz]; exact hz
    · intro hno
      have hz : q0.2.stakeholders = [] := by
        by_contra hz
        obtain ⟨t0, ht0, hprop, hsub⟩ :=
          stakeholders_from_triples ts st hrun p0.1 p0.2
            (by rw [← Prod.mk.eta (p := p0)] at hp0; exact hp0) q0.1 q0.2
            (by rw [← Prod.mk.eta (p := q0)] at hq0; exact hq0) hz
        rw [hqeq.1] at hsub
        exact hno t0 ht0 ⟨hprop, hsub⟩
      rw [← hqeq.2, if_pos hz]

/-- Witness for C9: the single triple `P -- hasSequencedItem --> i` yields an
item `i` with exactly the sentinel stakeholder list. -/
theorem parse_data_stakeholders_nonempty_witness :
    (ItemMeta.mk ["Unassigned"] []).stakeholders ≠ [] ∧
      ((∀ t ∈ [("P", "hasSequencedItem", "i")],
          ¬ (strLower (strStrip t.2.1) = "hasstakeholder" ∧ strStrip t.1 = "i")) →
        (ItemMeta.mk ["Unassigned"] []).stakeholders = ["Unassigned"]) :=
  parse_data_stakeholders_nonempty [("P", "hasSequencedItem", "i")]
    [("P", [("i", ItemMeta.mk ["Unassigned"] [])])] [] (by decide) "P"
    [("i", ItemMeta.mk ["Unassigned"] [])] (by decide) "i"
    (ItemMeta.mk ["Unassigned"] []) (by decide)

theorem adjOf_mem_keys (items : Items) (u v : String) (h : v ∈ adjOf items u) :
    v ∈ keysOf items := by
  unfold adjOf at h
  rcases hd : dictGet? items u with _ | meta
  · rw [hd] at h; exact absurd h (List.not_mem_nil v)
  · rw [hd] at h
    exact of_decide_eq_true (List.mem_filter.mp h).2

theorem dictGet?_isSome_mem_keys {α : Type} (l : List (String × α)) (k : String)
    (h : (dictGet? l k).isSome) : k ∈ l.map Prod.fst := by
  induction l with
  | nil => cases h
  | cons p rest ih =>
    obtain ⟨k1, v1⟩ := p
    by_cases h1 : k1 = k
    · rw [List.map_cons]
      exact h1 ▸ List.mem_cons.mpr (Or.inl rfl)
    · rw [dictGet?, if_neg h1] at h
      exact List.mem_cons.mpr (Or.inr (ih h))

theorem adjOf_source_mem (items : Items) (u v : String) (h : v ∈ adjOf items u) :
    u ∈ keysOf items := by
  unfold adjOf at h
  rcases hd : dictGet? items u with _ | meta
  · rw [hd] at h; exact absurd h (List.not_mem_nil v)
  · exact dictGet?_isSome_mem_keys items u (by rw [hd]; rfl)

theorem reach_trans (items : Items) (a b c : String) (h1 : ReachAdj items a b)
    (h2 : ReachAdj items b c) : ReachAdj items a c := by
  induction h1 with
  | base hedge => exact ReachAdj.step hedge h2
  | step hedge _ ih => exact ReachAdj.step hedge (ih h2)

theorem reach_last_edge (items : Items) (u z : String) (h : ReachAdj items u z) :
    ∃ w, z ∈ adjOf items w ∧ (w = u ∨ ReachAdj items u w) := by
  induction h with
  | base hedge => exact ⟨_, hedge, Or.inl rfl⟩
  | step hedge _ ih =>
    obtain ⟨w, hw, hcase⟩ := ih
    rcases hcase with rfl | hreach
    · exact ⟨w, hw, Or.inr (ReachAdj.base hedge)⟩
    · exact ⟨w, hw, Or.inr (ReachAdj.step hedge hreach)⟩

theorem onCycle_pred (items : Items) (v : String) (h : OnCycle items v) :
    ∃ w, v ∈ adjOf items w ∧ OnCycle items w := by
  obtain ⟨w, hw, hcase⟩ := reach_last_edge items v v h
  rcases hcase with rfl | hreach
  · exact ⟨w, hw, h⟩
  · exact ⟨w, hw, reach_trans items w v w (ReachAdj.base hw) hreach⟩

theorem remIn_nonneg (items : Items) (processed : List String) (v : String) :
    0 ≤ remIn items processed v := by
  unfold remIn
  refine List.sum_nonneg ?_
  intro x hx
  obtain ⟨u, -, rfl⟩ := List.mem_map.mp hx
  exact Int.ofNat_nonneg _

theorem remIn_nil (items : Items) (v : String) : remIn items [] v = inDeg0 items v := by
  unfold remIn inDeg0
  rw [List.filter_eq_self.mpr]
  intro a ha
  exact decide_eq_true (List.not_mem_nil a)

theorem remIn_single_le (items : Items) (processed : List String) (v w : String)
    (hw : w ∈ keysOf items) (hnp : w ∉ processed) :
    ((adjOf items w).count v : Int) ≤ remIn items processed v := by
  unfold remIn
  refine List.single_le_sum ?_ _ ?_
  · intro x hx
    obtain ⟨u, -, rfl⟩ := List.mem_map.mp hx
    exact Int.ofNat_nonneg _
  · exact List.mem_map.mpr ⟨w, List.mem_filter.mpr ⟨hw, decide_eq_true hnp⟩, rfl⟩

theorem filter_sum_extract (f : String → Int) (processed : List String) (u0 : String)
    (l : List String) (hnd : l.Nodup) (hmem : u0 ∈ l) (hnp : u0 ∉ processed) :
    ((l.filter (fun u => decide (u ∉ processed))).map f).sum =
      ((l.filter (fun u => decide (u ∉ processed ++ [u0]))).map f).sum + f u0 := by
  induction l with
  | nil => exact absurd hmem (List.not_mem_nil u0)
  | cons k rest ih =>
    have hknd := (List.nodup_cons.mp hnd).2
    rcases List.mem_cons.mp hmem with rfl | hmem2
    · have hu0rest : u0 ∉ rest := (List.nodup_cons.mp hnd).1
      have hmemapp : u0 ∈ processed ++ [u0] :=
        List.mem_append_right _ (List.mem_singleton.mpr rfl)
      rw [List.filter_cons, List.filter_cons, if_pos (decide_eq_true hnp),
          if_neg (by rw [decide_eq_false (not_not_intro hmemapp)]; exact Bool.false_ne_true)]
      have hsame : rest.filter (fun u => decide (u ∉ processed)) =
          rest.filter (fun u => decide (u ∉ processed ++ [u0])) := by
        apply List.filter_congr
        intro u hu
        have hne : u ≠ u0 := fun e => hu0rest (e ▸ hu)
        apply decide_eq_decide.mpr
        constructor
        · intro h1 h2
          rcases List.mem_append.mp h2 with h3 | h3
          · exact h1 h3
          · exact hne (List.mem_singleton.mp h3)
        · intro h1 h2
          exact h1 (List.mem_append_left _ h2)
      rw [hsame, List.map_cons, List.sum_cons]
      omega
    · have hk_ne : k ≠ u0 := fun e => (List.nodup_cons.mp hnd).1 (e ▸ hmem2)
      have hcond : (decide (k ∉ processed ++ [u0]) : Bool) = decide (k ∉ processed) := by
        apply decide_eq_decide.mpr
        constructor
        · intro h1 h2
          exact h1 (List.mem_append_left _ h2)
        · intro h1 h2
          rcases List.mem_append.mp h2 with h3 | h3
          · exact h1 h3
          · exact hk_ne (List.mem_singleton.mp h3)
      rw [List.filter_cons, List.filter_cons, hcond]
      by_cases hkp : k ∉ processed
      · rw [if_pos (decide_eq_true hkp), if_pos (decide_eq_true hkp),
            List.map_cons, List.sum_cons, List.map_cons, List.sum_cons,
            ih hknd hmem2]
        omega
      · rw [if_neg (by rw [decide_eq_false hkp]; exact Bool.false_ne_true),
            if_neg (by rw [decide_eq_false hkp]; exact Bool.false_ne_true)]
        exact ih hknd hmem2

theorem remIn_append_single (items : Items) (hkeys : (keysOf items).Nodup)
    (processed : List String) (u0 : String) (hu0 : u0 ∈ keysOf items)
    (hnp : u0 ∉ processed) (v : String) :
    remIn items processed v =
      remIn items (processed ++ [u0]) v + ((adjOf items u0).count v : Int) := by
  unfold remIn
  exact filter_sum_extract (fun u => ((adjOf items u).count v : Int)) processed u0
    (keysOf items) hkeys hu0 hnp

theorem kahnInv_edge_step (items : Items) (hkeys : (keysOf items).Nodup) (u0 v : String)
    (rest : List String) (s : KahnState) (hinv : KahnInv items u0 (v :: rest) s)
    (hu0 : u0 ∈ s.processed) (hvadj : v ∈ adjOf items u0) :
    KahnInv items u0 rest
      { levels := fun w => if w = v then max (s.levels v) (s.levels u0 + 1) else s.levels w
        inDeg := fun w => if w = v then s.inDeg v - 1 else s.inDeg w
        queue := if s.inDeg v - 1 = 0 then s.queue ++ [v] else s.queue
        processed := s.processed } := by
  have hvkeys : v ∈ keysOf items := adjOf_mem_keys items u0 v hvadj
  have hdegv := hinv.degEq v
  have hcountv : 0 < (v :: rest).count v :=
    List.count_pos_iff.mpr (List.mem_cons.mpr (Or.inl rfl))
  have hrem := remIn_nonneg items s.processed v
  have hpos : 0 < s.inDeg v := by omega
  have hvnot : ¬ (v ∈ s.queue ∨ v ∈ s.processed) := fun h => by
    have := hinv.degZero v h
    omega
  have hvq : v ∉ s.queue := fun h => hvnot (Or.inl h)
  have hvp : v ∉ s.processed := fun h => hvnot (Or.inr h)
  have hu0v : u0 ≠ v := fun e => hvp (e ▸ hu0)
  -- characterization of the (possibly extended) queue
  have hQmem : ∀ x, (x ∈ if s.inDeg v - 1 = 0 then s.queue ++ [v] else s.queue) →
      x ∈ s.queue ∨ (x = v ∧ s.inDeg v - 1 = 0) := by
    intro x hx
    by_cases hz : s.inDeg v - 1 = 0
    · rw [if_pos hz] at hx
      rcases List.mem_append.mp hx with h1 | h1
      · exact Or.inl h1
      · exact Or.inr ⟨List.mem_singleton.mp h1, hz⟩
    · rw [if_neg hz] at hx
      exact Or.inl hx
  -- the defended cycle fact: if v were on a cycle its in-degree could not drop to 0
  have hcycv : OnCycle items v → s.inDeg v - 1 ≠ 0 := by
    intro hc
    obtain ⟨w, hwv, hwc⟩ := onCycle_pred items v hc
    have hwp : w ∉ s.processed := (hinv.noCycle w hwc).2
    have hwk : w ∈ keysOf items := adjOf_source_mem items w v hwv
    have h1 : (1 : Int) ≤ ((adjOf items w).count v : Int) := by
      have : 0 < (adjOf items w).count v := List.count_pos_iff.mpr hwv
      omega
    have h2 := remIn_single_le items s.processed v w hwk hwp
    have h3 : (1 : Int) ≤ ((v :: rest).count v : Int) := by omega
    omega
  refine ⟨hinv.procNodup, ?_, ?_, hinv.procKeys, ?_, ?_, ?_, ?_, ?_, ?_⟩
  · -- queueNodup
    by_cases hz : s.inDeg v - 1 = 0
    · show (if s.inDeg v - 1 = 0 then s.queue ++ [v] else s.queue).Nodup
      rw [if_pos hz, List.nodup_append]
      exact ⟨hinv.queueNodup, List.nodup_singleton v,
        fun a ha hav => hvq ((List.mem_singleton.mp hav) ▸ ha)⟩
    · show (if s.inDeg v - 1 = 0 then s.queue ++ [v] else s.queue).Nodup
      rw [if_neg hz]
      exact hinv.queueNodup
  · -- disj
    intro x hx
    rcases hQmem x hx with h1 | ⟨rfl, -⟩
    · exact hinv.disj x h1
    · exact hvp
  · -- queueKeys
    intro x hx
    rcases hQmem x hx with h1 | ⟨rfl, -⟩
    · exact hinv.queueKeys x h1
    · exact hvkeys
  · -- degEq
    intro w
    show (if w = v then s.inDeg v - 1 else s.inDeg w) =
      remIn items s.processed w + (rest.count w : Int)
    by_cases hw : w = v
    · subst hw
      rw [if_pos rfl]
      have : (w :: rest).count w = rest.count w + 1 := List.count_cons_self w rest
      rw [this] at hdegv
      push_cast at hdegv ⊢
      omega
    · rw [if_neg hw]
      have hd := hinv.degEq w
      have : (v :: rest).count w = rest.count w := by
        rw [List.count_cons]
        simp [hw, Ne.symm hw]
      rw [this] at hd
      exact hd
  · -- degZero
    intro w hw
    show (if w = v then s.inDeg v - 1 else s.inDeg w) = 0
    rcases hw with hw | hw
    · rcases hQmem w hw with h1 | ⟨rfl, hz⟩
      · have hwv : w ≠ v := fun e => hvq (e ▸ h1)
        rw [if_neg hwv]
        exact hinv.degZero w (Or.inl h1)
      · rw [if_pos rfl]
        exact hz
    · have hwv : w ≠ v := fun e => hvp (e ▸ hw)
      rw [if_neg hwv]
      exact hinv.degZero w (Or.inr hw)
  · -- levOrd
    intro u hup t htadj
    have hunv : u ≠ v := fun e => hvp (e ▸ hup)
    rcases hinv.levOrd u hup t htadj with ⟨hueq, htvs⟩ | hlt
    · rcases List.mem_cons.mp htvs with rfl | htrest
      · refine Or.inr ?_
        show (if u = t then _ else s.levels u) < (if t = t then max (s.levels t) (s.levels u0 + 1) else s.levels t)
        rw [if_neg hunv, if_pos rfl, hueq]
        exact lt_of_lt_of_le (Nat.lt_succ_self _) (le_max_right _ _)
      · exact Or.inl ⟨hueq, htrest⟩
    · refine Or.inr ?_
      show (if u = v then max (s.levels v) (s.levels u0 + 1) else s.levels u) <
        (if t = v then max (s.levels v) (s.levels u0 + 1) else s.levels t)
      rw [if_neg hunv]
      by_cases htv : t = v
      · subst htv
        rw [if_pos rfl]
        exact lt_of_lt_of_le hlt (le_max_left _ _)
      · rw [if_neg htv]
        exact hlt
  · -- levZero
    intro w hw
    have hwv : w ≠ v := fun e => (hw u0 hu0) (e ▸ hvadj)
    show (if w = v then _ else s.levels w) = 0
    rw [if_neg hwv]
    exact hinv.levZero w hw
  · -- noCycle
    intro z hzc
    have hold := hinv.noCycle z hzc
    constructor
    · intro hzq
      rcases hQmem z hzq with h1 | ⟨rfl, hz0⟩
      · exact hold.1 h1
      · exact hcycv hzc hz0
    · exact hold.2

theorem processEdges_inv (items : Items) (hkeys : (keysOf items).Nodup) (u0 : String)
    (vs : List String) : ∀ s : KahnState, KahnInv items u0 vs s → u0 ∈ s.processed →
    (∀ x ∈ vs, x ∈ adjOf items u0) → KahnInv items u0 [] (processEdges u0 s vs) := by
  induction vs with
  | nil => exact fun s hinv _ _ => hinv
  | cons v rest ih =>
    intro s hinv hu0 hsub
    have hvadj : v ∈ adjOf items u0 := hsub v (List.mem_cons.mpr (Or.inl rfl))
    rw [processEdges]
    exact ih _ (kahnInv_edge_step items hkeys u0 v rest s hinv hu0 hvadj) hu0
      (fun x hx => hsub x (List.mem_cons_of_mem _ hx))

theorem kahnInv_boundary (items : Items) (u0 u1 : String) (s : KahnState)
    (h : KahnInv items u0 [] s) : KahnInv items u1 [] s := by
  refine ⟨h.procNodup, h.queueNodup, h.disj, h.procKeys, h.queueKeys, h.degEq, h.degZero,
    ?_, h.levZero, h.noCycle⟩
  intro u hu t ht
  rcases h.levOrd u hu t ht with ⟨-, hfalse⟩ | hlt
  · exact absurd hfalse (List.not_mem_nil t)
  · exact Or.inr hlt

theorem kahnStep_inv (items : Items) (hkeys : (keysOf items).Nodup) (u0 : String)
    (s : KahnState) (h : KahnInv items u0 [] s) : KahnInv items u0 [] (kahnStep items s) := by
  rcases hq : s.queue with _ | ⟨u, rest⟩
  · rw [kahnStep, hq]
    exact h
  · rw [kahnStep, hq]
    have huq : u ∈ s.queue := by rw [hq]; exact List.mem_cons.mpr (Or.inl rfl)
    have hukeys : u ∈ keysOf items := h.queueKeys u huq
    have hunp : u ∉ s.processed := h.disj u huq
    have hrestq : ∀ x ∈ rest, x ∈ s.queue := by
      intro x hx; rw [hq]; exact List.mem_cons_of_mem _ hx
    have hqnd := h.queueNodup
    rw [hq] at hqnd
    have hinv1 : KahnInv items u (adjOf items u)
        { levels := s.levels, inDeg := s.inDeg, queue := rest,
          processed := s.processed ++ [u] } := by
      refine ⟨?_, ?_, ?_, ?_, ?_, ?_, ?_, ?_, ?_, ?_⟩
      · rw [List.nodup_append]
        exact ⟨h.procNodup, List.nodup_singleton u,
          fun a ha hau => hunp ((List.mem_singleton.mp hau) ▸ ha)⟩
      · exact (List.nodup_cons.mp hqnd).2
      · intro x hx
        intro hmem
        rcases List.mem_append.mp hmem with h1 | h1
        · exact h.disj x (hrestq x hx) h1
        · exact (List.nodup_cons.mp hqnd).1 ((List.mem_singleton.mp h1) ▸ hx)
      · intro x hx
        rcases List.mem_append.mp hx with h1 | h1
        · exact h.procKeys x h1
        · exact (List.mem_singleton.mp h1) ▸ hukeys
      · exact fun x hx => h.queueKeys x (hrestq x hx)
      · intro v
        have hd := h.degEq v
        rw [List.count_nil, Int.ofNat_zero, add_zero] at hd
        rw [hd, remIn_append_single items hkeys s.processed u hukeys hunp v]
      · intro v hv
        rcases hv with hv | hv
        · exact h.degZero v (Or.inl (hrestq v hv))
        · rcases List.mem_append.mp hv with h1 | h1
          · exact h.degZero v (Or.inr h1)
          · exact h.degZero v (Or.inl ((List.mem_singleton.mp h1) ▸ huq))
      · intro x hx t ht
        rcases List.mem_append.mp hx with h1 | h1
        · rcases h.levOrd x h1 t ht with ⟨-, hfalse⟩ | hlt
          · exact absurd hfalse (List.not_mem_nil t)
          · exact Or.inr hlt
        · have hxu := List.mem_singleton.mp h1
          subst hxu
          exact Or.inl ⟨rfl, ht⟩
      · intro w hw
        refine h.levZero w ?_
        intro x hx
        exact hw x (List.mem_append_left _ hx)
      · intro z hz
        have hold := h.noCycle z hz
        constructor
        · exact fun hzq => hold.1 (hrestq z hzq)
        · intro hmem
          rcases List.mem_append.mp hmem with h1 | h1
          · exact hold.2 h1
          · exact hold.1 ((List.mem_singleton.mp h1) ▸ huq)
    exact kahnInv_boundary items u u0 _
      (processEdges_inv items hkeys u (adjOf items u) _ hinv1
        (List.mem_append_right _ (List.mem_singleton.mpr rfl)) (fun x hx => hx))

theorem kahnInit_inv (items : Items) (hkeys : (keysOf items).Nodup) (u0 : String) :
    KahnInv items u0 [] (kahnInit items) := by
  refine ⟨List.nodup_nil, ?_, ?_, ?_, ?_, ?_, ?_, ?_, ?_, ?_⟩
  · exact hkeys.filter _
  · exact fun x _ => List.not_mem_nil x
  · exact fun x hx => absurd hx (List.not_mem_nil x)
  · exact fun x hx => (List.mem_filter.mp hx).1
  · intro v
    show inDeg0 items v = remIn items [] v + (([] : List String).count v : Int)
    rw [List.count_nil, Int.ofNat_zero, add_zero, remIn_nil]
  · intro v hv
    rcases hv with hv | hv
    · exact of_decide_eq_true (List.mem_filter.mp hv).2
    · exact absurd hv (List.not_mem_nil v)
  · exact fun u hu => absurd hu (List.not_mem_nil u)
  · exact fun w _ => rfl
  · intro z hz
    refine ⟨?_, List.not_mem_nil z⟩
    intro hzq
    have hz0 : inDeg0 items z = 0 := of_decide_eq_true (List.mem_filter.mp hzq).2
    obtain ⟨w, hwz, hwc⟩ := onCycle_pred items z hz
    have hwk : w ∈ keysOf items := adjOf_source_mem items w z hwz
    have h1 : (1 : Int) ≤ ((adjOf items w).count z : Int) := by
      have : 0 < (adjOf items w).count z := List.count_pos_iff.mpr hwz
      omega
    have h2 := remIn_single_le items [] z w hwk (List.not_mem_nil w)
    rw [remIn_nil] at h2
    omega

theorem kahnRun_inv_from (items : Items) (hkeys : (keysOf items).Nodup) (u0 : String)
    (fuel : Nat) : ∀ s : KahnState, KahnInv items u0 [] s →
    KahnInv items u0 [] (kahnRun items fuel s) := by
  induction fuel with
  | zero => exact fun s h => h
  | succ n ih =>
    intro s h
    rcases hq : s.queue with _ | ⟨u, rest⟩
    · rw [kahnRun, hq]
      exact h
    · rw [kahnRun, hq]
      exact ih _ (kahnStep_inv items hkeys u0 s h)

theorem kahnRun_inv (items : Items) (hkeys : (keysOf items).Nodup) (u0 : String)
    (fuel : Nat) : KahnInv items u0 [] (kahnRun items fuel (kahnInit items)) :=
  kahnRun_inv_from items hkeys u0 fuel (kahnInit items) (kahnInit_inv items hkeys u0)

theorem kahnFinal_inv (items : Items) (hkeys : (keysOf items).Nodup) (u0 : String) :
    KahnInv items u0 [] (kahnFinal items) :=
  kahnRun_inv items hkeys u0 (kahnFuel items)

theorem sum_map_single_diff (l : List String) (hl : l.Nodup) (f g : String → Nat) (v : String)
    (hv : v ∈ l) (h : ∀ w, w ≠ v → g w = f w) :
    (l.map g).sum + f v = (l.map f).sum + g v := by
  induction l with
  | nil => cases hv
  | cons a rest ih =>
    rcases List.mem_cons.mp hv with rfl | hv2
    · have hvrest : v ∉ rest := (List.nodup_cons.mp hl).1
      have hrest : rest.map g = rest.map f :=
        List.map_congr_left (fun w hw => h w (fun e => hvrest (e ▸ hw)))
      rw [List.map_cons, List.map_cons, List.sum_cons, List.sum_cons, hrest]
      omega
    · have ha : g a = f a := h a (fun e => (List.nodup_cons.mp hl).1 (e ▸ hv2))
      have hih := ih (List.nodup_cons.mp hl).2 hv2
      rw [List.map_cons, List.map_cons, List.sum_cons, List.sum_cons, ha]
      omega

theorem processEdges_measure (items : Items) (hkeys : (keysOf items).Nodup) (u0 : String)
    (vs : List String) : ∀ s : KahnState, (∀ x ∈ vs, x ∈ keysOf items) →
    kahnMeasure items (processEdges u0 s vs) ≤ kahnMeasure items s := by
  induction vs with
  | nil => exact fun s _ => le_refl _
  | cons v rest ih =>
    intro s hsub
    rw [processEdges]
    refine le_trans (ih _ (fun x hx => hsub x (List.mem_cons_of_mem _ hx))) ?_
    have hvk : v ∈ keysOf items := hsub v (List.mem_cons.mpr (Or.inl rfl))
    have hsum := sum_map_single_diff (keysOf items) hkeys
      (fun w => (s.inDeg w).toNat)
      (fun w => (if w = v then s.inDeg v - 1 else s.inDeg w).toNat) v hvk
      (fun w hw => by
        show (if w = v then s.inDeg v - 1 else s.inDeg w).toNat = (s.inDeg w).toNat
        rw [if_neg hw])
    have hsum2 : (List.map (fun w => (if w = v then s.inDeg v - 1 else s.inDeg w).toNat)
        (keysOf items)).sum + (s.inDeg v).toNat =
        (List.map (fun w => (s.inDeg w).toNat) (keysOf items)).sum + (s.inDeg v - 1).toNat := by
      have hbeta := hsum
      simp only [if_pos rfl] at hbeta
      exact hbeta
    clear hsum
    have hgle : (s.inDeg v - 1).toNat ≤ (s.inDeg v).toNat := Int.toNat_le_toNat (by omega)
    unfold kahnMeasure
    dsimp only
    by_cases hz : s.inDeg v - 1 = 0
    · rw [if_pos hz, List.length_append, List.length_singleton]
      have hfv : (s.inDeg v).toNat = 1 := by
        have : s.inDeg v = 1 := by omega
        rw [this]; rfl
      have hgv : (s.inDeg v - 1).toNat = 0 := by rw [hz]; rfl
      omega
    · rw [if_neg hz]
      omega


theorem kahnStep_measure (items : Items) (hkeys : (keysOf items).Nodup) (s : KahnState)
    (u : String) (rest : List String) (hq : s.queue = u :: rest) :
    kahnMeasure items (kahnStep items s) < kahnMeasure items s := by
  rw [kahnStep, hq]
  refine lt_of_le_of_lt (processEdges_measure items hkeys u (adjOf items u) _
    (fun x hx => adjOf_mem_keys items u x hx)) ?_
  unfold kahnMeasure
  dsimp only
  rw [hq, List.length_cons]
  omega

theorem kahnRun_empty (items : Items) (hkeys : (keysOf items).Nodup) :
    ∀ (fuel : Nat) (s : KahnState), kahnMeasure items s ≤ fuel →
      (kahnRun items fuel s).queue = [] := by
  intro fuel
  induction fuel with
  | zero =>
    intro s hm
    have h0 : s.queue.length = 0 := by
      unfold kahnMeasure at hm; omega
    rw [kahnRun]
    exact List.length_eq_zero.mp h0
  | succ n ih =>
    intro s hm
    rcases hq : s.queue with _ | ⟨u, rest⟩
    · rw [kahnRun, hq]
      exact hq
    · rw [kahnRun, hq]
      refine ih _ ?_
      have := kahnStep_measure items hkeys s u rest hq
      omega

/-- The fuel chosen for `kahnFinal` really drains the queue: the embedded
loop computes exactly what the unbounded `while queue` loop computes. -/
theorem kahn_terminates (items : Items) (hkeys : (keysOf items).Nodup) :
    (kahnFinal items).queue = [] :=
  kahnRun_empty items hkeys (kahnFuel items) (kahnInit items) (le_refl _)

/-- C1: for every edge `u → v` of a procedure's successor graph (both
endpoints items of the same procedure, targets outside the dict having been
filtered out of the adjacency) such that both endpoints are eventually
dequeued by the `while queue` loop, the ranks returned by
`calculate_vertical_order` satisfy `rank[v] > rank[u]`. -/
theorem calculate_vertical_order_rank_strict (items : Items)
    (hkeys : (keysOf items).Nodup) (u v : String) (hedge : v ∈ adjOf items u)
    (hu : u ∈ (kahnFinal items).processed) (hv : v ∈ (kahnFinal items).processed) :
    calculate_vertical_order items u < calculate_vertical_order items v := by
  rcases (kahnFinal_inv items hkeys "").levOrd u hu v hedge with ⟨-, hfalse⟩ | hlt
  · exact absurd hfalse (List.not_mem_nil v)
  · exact hlt

/-- Witness for C1 on the two-node chain `A → B`: both endpoints are dequeued
and the ranks are strictly increasing along the edge. -/
theorem calculate_vertical_order_rank_strict_witness :
    ((keysOf itemsChain).Nodup ∧ "B" ∈ adjOf itemsChain "A" ∧
      "A" ∈ (kahnFinal itemsChain).processed ∧
      "B" ∈ (kahnFinal itemsChain).processed) ∧
    calculate_vertical_order itemsChain "A" < calculate_vertical_order itemsChain "B" :=
  ⟨⟨by decide, by decide, by decide, by decide⟩,
    calculate_vertical_order_rank_strict itemsChain (by decide) "A" "B"
      (by decide) (by decide) (by decide)⟩

/-- C2 counterexample: in `itemsFedCycle` (edges `a → b`, `b → c`, `c → b`)
the node `b` sits on the cycle `b → c → b`, yet its returned rank is `1`,
not the initialized default `0`: the acyclic predecessor `a` is dequeued and
its relaxation raises `b`'s level before the loop stalls on the cycle. -/
theorem cycle_rank_counterexample :
    OnCycle itemsFedCycle "b" ∧ calculate_vertical_order itemsFedCycle "b" = 1 ∧
      calculate_vertical_order itemsFedCycle "b" ≠ 0 :=
  ⟨ReachAdj.step (show "c" ∈ adjOf itemsFedCycle "b" by decide)
      (ReachAdj.base (show "b" ∈ adjOf itemsFedCycle "c" by decide)),
    by decide, by decide⟩

/-- C2 (amended): every node `v` on a cycle never reaches zero in-degree (its
in-degree is positive at every iteration boundary of the loop) and is never
dequeued; and its returned rank stays at the initialized default `0`
provided every predecessor of `v` also lies on a cycle.  (Without that
proviso the rank can be raised by a dequeued predecessor outside the cycle —
see `cycle_rank_counterexample`.) -/
theorem cycle_never_dequeued (items : Items) (hkeys : (keysOf items).Nodup) (v : String)
    (hc : OnCycle items v) :
    (∀ fuel : Nat, v ∉ (kahnRun items fuel (kahnInit items)).processed ∧
      0 < (kahnRun items fuel (kahnInit items)).inDeg v) ∧
      ((∀ u, v ∈ adjOf items u → OnCycle items u) →
        calculate_vertical_order items v = 0) := by
  constructor
  · intro fuel
    have hinv := kahnRun_inv items hkeys "" fuel
    refine ⟨(hinv.noCycle v hc).2, ?_⟩
    obtain ⟨w, hwv, hwc⟩ := onCycle_pred items v hc
    have hwp : w ∉ (kahnRun items fuel (kahnInit items)).processed := (hinv.noCycle w hwc).2
    have hwk : w ∈ keysOf items := adjOf_source_mem items w v hwv
    have h1 : (1 : Int) ≤ ((adjOf items w).count v : Int) := by
      have : 0 < (adjOf items w).count v := List.count_pos_iff.mpr hwv
      omega
    have h2 := remIn_single_le items _ v w hwk hwp
    have h3 := hinv.degEq v
    rw [List.count_nil] at h3
    omega
  · intro hpred
    have hinv := kahnFinal_inv items hkeys ""
    refine hinv.levZero v ?_
    intro x hx hvadj
    exact (hinv.noCycle x (hpred x hvadj)).2 hx

/-- Witness for C2 (amended) on the pure cycle `b → c → b`: `b` is on the
cycle, all its predecessors are on the cycle, and its rank is `0`; moreover
it is never dequeued at any fuel. -/
theorem cycle_never_dequeued_witness :
    OnCycle itemsPureCycle "b" ∧
      "b" ∉ (kahnRun itemsPureCycle 3 (kahnInit itemsPureCycle)).processed ∧
      0 < (kahnRun itemsPureCycle 3 (kahnInit itemsPureCycle)).inDeg "b" ∧
      calculate_vertical_order itemsPureCycle "b" = 0 := by
  have hc : OnCycle itemsPureCycle "b" :=
    ReachAdj.step (show "c" ∈ adjOf itemsPureCycle "b" by decide)
      (ReachAdj.base (show "b" ∈ adjOf itemsPureCycle "c" by decide))
  have hmain := cycle_never_dequeued itemsPureCycle (by decide) "b" hc
  refine ⟨hc, (hmain.1 3).1, (hmain.1 3).2, hmain.2 ?_⟩
  intro u hu
  have hk : u ∈ keysOf itemsPureCycle := adjOf_source_mem itemsPureCycle u "b" hu
  have hcase : u = "b" ∨ u = "c" := by
    have hkeq : keysOf itemsPureCycle = ["b", "c"] := rfl
    rw [hkeq] at hk
    simpa using hk
  rcases hcase with rfl | rfl
  · exact absurd hu (by decide)
  · exact ReachAdj.step (show "b" ∈ adjOf itemsPureCycle "c" by decide)
      (ReachAdj.base (show "c" ∈ adjOf itemsPureCycle "b" by decide))

theorem dictGet?_mem {κ α : Type} [DecidableEq κ] (l : List (κ × α)) (k : κ) (v : α)
    (h : dictGet? l k = some v) : (k, v) ∈ l := by
  induction l with
  | nil => cases h
  | cons p rest ih =>
    obtain ⟨k1, v1⟩ := p
    by_cases h1 : k1 = k
    · rw [dictGet?, if_pos h1] at h
      rw [← h1, Option.some.inj h]
      exact List.mem_cons.mpr (Or.inl rfl)
    · rw [dictGet?, if_neg h1] at h
      exact List.mem_cons_of_mem _ (ih h)

theorem idMapCovered_append (idMap : List (String × List (String × String)))
    (cells more : List Cell) (h : IdMapCovered idMap cells) :
    IdMapCovered idMap (cells ++ more) := by
  intro i inner hi sh uid hsh
  obtain ⟨c, hc, hprop⟩ := h i inner hi sh uid hsh
  exact ⟨c, List.mem_append_left _ hc, hprop⟩

theorem emitCopies_covered (σ : Nat → String) (items : Items) (levels : String → Nat)
    (laneIds : List (String × String)) (tt : Option String)
    (itemId cleanName fill : String) (lvl : Nat) (shs : List String) :
    ∀ (st : EmitSt) (cells0 : List Cell), IdMapCovered st.idMap cells0 →
      IdMapCovered (emitCopies σ items levels laneIds tt itemId cleanName fill lvl shs st).2.idMap
        (cells0 ++ (emitCopies σ items levels laneIds tt itemId cleanName fill lvl shs st).1) ∧
      (∀ c ∈ (emitCopies σ items levels laneIds tt itemId cleanName fill lvl shs st).1,
        c.kind = CellKind.node) := by
  induction shs with
  | nil =>
    intro st cells0 h
    rw [emitCopies]
    exact ⟨by simpa using h, fun c hc => absurd hc (List.not_mem_nil c)⟩
  | cons sh rest ih =>
    intro st cells0 h
    rw [emitCopies]
    set nodeUuid := σ st.k with huuid
    set c : Cell :=
      { kind := .node, id := nodeUuid, value := cleanName, style := nodeStyle fill,
        parent := (dictGet? laneIds sh).getD "", source := "", target := "",
        tooltip := tt,
        geom := some { gx := pyInt (xPosQ items levels sh lvl
                         ((dictGet? st.placed (sh, lvl)).getD 0)),
                       gy := (yPosOf lvl : Int), gw := (itemWidth : Int),
                       gh := (itemHeight : Int) } } with hc
    have hcov2 : IdMapCovered
        (dictUpdate st.idMap itemId (fun inner => dictSet inner sh nodeUuid))
        (cells0 ++ [c]) := by
      intro i inner hi sh2 uid hsh
      rcases mem_dictUpdate _ _ _ _ _ hi with h1 | ⟨inner0, h1, hieq, hinner⟩
      · obtain ⟨c2, hc2, hprop⟩ := h i inner h1 sh2 uid hsh
        exact ⟨c2, List.mem_append_left _ hc2, hprop⟩
      · rw [hinner] at hsh
        rcases mem_dictSet _ _ _ _ _ hsh with h2 | ⟨-, h2⟩
        · obtain ⟨c2, hc2, hprop⟩ := h i inner0 h1 sh2 uid h2
          exact ⟨c2, List.mem_append_left _ hc2, hprop⟩
        · refine ⟨c, List.mem_append_right _ (List.mem_singleton.mpr rfl), rfl, ?_⟩
          rw [h2]
    have := ih
      ({ k := st.k + 1,
         placed := dictSet st.placed (sh, lvl) ((dictGet? st.placed (sh, lvl)).getD 0 + 1),
         idMap := dictUpdate st.idMap itemId (fun inner => dictSet inner sh nodeUuid),
         colorMap := st.colorMap, colorCounter := st.colorCounter } : EmitSt)
      (cells0 ++ [c]) hcov2
    refine ⟨?_, ?_⟩
    · have h2 := this.1
      rw [List.append_assoc] at h2
      simpa using h2
    · intro c2 hc2
      rcases List.mem_cons.mp hc2 with h3 | h3
      · rw [h3]
      · exact this.2 c2 h3

theorem colorBindStep_idMap (itemId : String) (isMulti : Bool) (st : EmitSt) :
    (colorBindStep itemId isMulti st).idMap = st.idMap := by
  unfold colorBindStep
  by_cases h : (isMulti && (dictGet? st.colorMap itemId).isNone) = true
  · rw [if_pos h]
  · rw [if_neg h]

theorem setdefaultStep_covered (itemId : String) (st : EmitSt) (cells : List Cell)
    (h : IdMapCovered st.idMap cells) : IdMapCovered (setdefaultStep itemId st).idMap cells := by
  unfold setdefaultStep
  by_cases hc : (dictGet? st.idMap itemId).isSome
  · rw [if_pos hc]; exact h
  · rw [if_neg hc]
    intro i inner hi sh uid hsh
    rcases List.mem_append.mp hi with h1 | h1
    · exact h i inner h1 sh uid hsh
    · have h2 := List.mem_singleton.mp h1
      rw [Prod.mk.injEq] at h2
      rw [h2.2] at hsh
      exact absurd hsh (List.not_mem_nil _)

theorem emitItems_covered (σ : Nat → String) (items : Items) (levels : String → Nat)
    (laneIds : List (String × String)) (tooltips : List (String × String)) (lst : Items) :
    ∀ (st : EmitSt) (cells0 : List Cell), IdMapCovered st.idMap cells0 →
      IdMapCovered (emitItems σ items levels laneIds tooltips lst st).2.idMap
        (cells0 ++ (emitItems σ items levels laneIds tooltips lst st).1) ∧
      (∀ c ∈ (emitItems σ items levels laneIds tooltips lst st).1,
        c.kind = CellKind.node) := by
  induction lst with
  | nil =>
    intro st cells0 h
    rw [emitItems]
    exact ⟨by simpa using h, fun c hc => absurd hc (List.not_mem_nil c)⟩
  | cons p rest ih =>
    obtain ⟨itemId, meta⟩ := p
    intro st cells0 h
    rw [emitItems]
    have hst2 : IdMapCovered (setdefaultStep itemId
        (colorBindStep itemId (decide (meta.stakeholders.length > 1)) st)).idMap cells0 := by
      refine setdefaultStep_covered _ _ _ ?_
      rw [colorBindStep_idMap]
      exact h
    have h1 := emitCopies_covered σ items levels laneIds (dictGet? tooltips itemId) itemId
      (replaceUnderscores (afterLastColon itemId))
      (if decide (meta.stakeholders.length > 1) = true
        then (dictGet? (setdefaultStep itemId
          (colorBindStep itemId (decide (meta.stakeholders.length > 1)) st)).colorMap
          itemId).getD ""
        else "#ffffff")
      (levels itemId) meta.stakeholders _ cells0 hst2
    have h2 := ih _ _ h1.1
    constructor
    · have h3 := h2.1
      rw [List.append_assoc] at h3
      exact h3
    · intro c hc
      rcases List.mem_append.mp hc with h4 | h4
      · exact h1.2 c h4
      · exact h2.2 c h4

theorem emitLanes_kinds (σ : Nat → String) (poolId : String) (poolH : Nat) (items : Items)
    (levels : String → Nat) (shs : List String) :
    ∀ (accX k : Nat), ∀ c ∈ (emitLanes σ poolId poolH items levels shs accX k).1,
      c.kind = CellKind.lane := by
  induction shs with
  | nil => intro accX k c hc; rw [emitLanes] at hc; exact absurd hc (List.not_mem_nil c)
  | cons sh rest ih =>
    intro accX k c hc
    rw [emitLanes] at hc
    rcases List.mem_cons.mp hc with h1 | h1
    · rw [h1]
    · exact ih _ _ c h1

theorem emitCopies_keys (σ : Nat → String) (items : Items) (levels : String → Nat)
    (laneIds : List (String × String)) (tt : Option String)
    (itemId cleanName fill : String) (lvl : Nat) (shs : List String) :
    ∀ (st : EmitSt) (x : String),
      (dictGet? (emitCopies σ items levels laneIds tt itemId cleanName fill lvl shs st).2.idMap
        x).isSome = (dictGet? st.idMap x).isSome := by
  induction shs with
  | nil => intro st x; rw [emitCopies]
  | cons sh rest ih =>
    intro st x
    rw [emitCopies]
    rw [ih]
    by_cases hx : x = itemId
    · subst hx
      show (dictGet? (dictUpdate st.idMap x _) x).isSome = _
      rw [dictGet?_dictUpdate_self]
      cases dictGet? st.idMap x <;> rfl
    · show (dictGet? (dictUpdate st.idMap itemId _) x).isSome = _
      rw [dictGet?_dictUpdate_ne _ _ _ _ hx]

theorem setdefaultStep_keys (itemId x : String) (st : EmitSt)
    (h : (dictGet? (setdefaultStep itemId st).idMap x).isSome) :
    (dictGet? st.idMap x).isSome ∨ x = itemId := by
  unfold setdefaultStep at h
  by_cases hc : (dictGet? st.idMap itemId).isSome
  · rw [if_pos hc] at h; exact Or.inl h
  · rw [if_neg hc] at h
    by_cases hx : x = itemId
    · exact Or.inr hx
    · rw [show ({ st with idMap := st.idMap ++ [(itemId, [])] } : EmitSt).idMap =
          st.idMap ++ [(itemId, [])] from rfl, dictGet?_append] at h
      cases hg : dictGet? st.idMap x with
      | some v => exact Or.inl rfl
      | none =>
        rw [hg] at h
        rw [show (Option.none).or (dictGet? [(itemId, [])] x) =
            dictGet? [(itemId, [])] x from rfl] at h
        rw [dictGet?, if_neg (fun e => hx e.symm)] at h
        cases h

theorem emitItems_keys (σ : Nat → String) (items : Items) (levels : String → Nat)
    (laneIds : List (String × String)) (tooltips : List (String × String)) (lst : Items) :
    ∀ (st : EmitSt) (x : String),
      (dictGet? (emitItems σ items levels laneIds tooltips lst st).2.idMap x).isSome →
      (dictGet? st.idMap x).isSome ∨ x ∈ keysOf lst := by
  induction lst with
  | nil => intro st x h; rw [emitItems] at h; exact Or.inl h
  | cons p rest ih =>
    obtain ⟨itemId, meta⟩ := p
    intro st x h
    rw [emitItems] at h
    rcases ih _ x h with h1 | h1
    · rw [emitCopies_keys] at h1
      rcases setdefaultStep_keys itemId x _ h1 with h2 | h2
      · rw [colorBindStep_idMap] at h2
        exact Or.inl h2
      · exact Or.inr (h2 ▸ List.mem_cons.mpr (Or.inl rfl))
    · exact Or.inr (List.mem_cons_of_mem _ h1)

theorem emitProc_covered (σ : Nat → String) (tooltips : List (String × String))
    (milestoneId : String) (items : Items) (pst : PState)
    (hcov : IdMapCovered pst.idMap pst.cells)
    (hkinds : ∀ c ∈ pst.cells, c.kind ≠ CellKind.edge) :
    IdMapCovered (emitProc σ tooltips milestoneId items pst).idMap
      (emitProc σ tooltips milestoneId items pst).cells ∧
    (∀ c ∈ (emitProc σ tooltips milestoneId items pst).cells, c.kind ≠ CellKind.edge) ∧
    (∀ x : String, (dictGet? (emitProc σ tooltips milestoneId items pst).idMap x).isSome →
      (dictGet? pst.idMap x).isSome ∨ x ∈ keysOf items) := by
  unfold emitProc
  by_cases he : items.isEmpty
  · rw [if_pos he]
    exact ⟨hcov, hkinds, fun x h => Or.inl h⟩
  · rw [if_neg he]
    have hitems := emitItems_covered σ items (calculate_vertical_order items)
      (emitLanes σ (σ pst.k) ((maxLevel items (calculate_vertical_order items) + 1) *
          verticalSpacing + laneHeaderHeight + 60) items (calculate_vertical_order items)
        (allStakeholders items) 0 (pst.k + 1)).2.1 tooltips items
      { k := (emitLanes σ (σ pst.k) ((maxLevel items (calculate_vertical_order items) + 1) *
          verticalSpacing + laneHeaderHeight + 60) items (calculate_vertical_order items)
          (allStakeholders items) 0 (pst.k + 1)).2.2,
        placed := [], idMap := pst.idMap, colorMap := pst.colorMap,
        colorCounter := pst.colorCounter } pst.cells hcov
    refine ⟨?_, ?_, ?_⟩
    · intro i inner hi sh uid hsh
      obtain ⟨c, hc, hprop⟩ := hitems.1 i inner hi sh uid hsh
      rcases List.mem_append.mp hc with h1 | h1
      · exact ⟨c, List.mem_append_left _ (List.mem_append_left _
          (List.mem_append_left _ h1)), hprop⟩
      · exact ⟨c, List.mem_append_right _ h1, hprop⟩
    · intro c hc
      rcases List.mem_append.mp hc with h1 | h1
      · rcases List.mem_append.mp h1 with h2 | h2
        · rcases List.mem_append.mp h2 with h3 | h3
          · exact hkinds c h3
          · have h4 := List.mem_singleton.mp h3
            rw [h4]
            intro hcon
            cases hcon
        · have h4 := emitLanes_kinds σ _ _ items _ (allStakeholders items) 0 (pst.k + 1) c h2
          rw [h4]
          intro hcon
          cases hcon
      · have h4 := hitems.2 c h1
        rw [h4]
        intro hcon
        cases hcon
    · intro x h
      rcases emitItems_keys σ items _ _ tooltips items _ x h with h1 | h1
      · exact Or.inl h1
      · exact Or.inr h1

theorem procsPass_covered (σ : Nat → String) (tooltips : List (String × String))
    (ds : DataStruct) :
    ∀ pst : PState, IdMapCovered pst.idMap pst.cells →
      (∀ c ∈ pst.cells, c.kind ≠ CellKind.edge) →
      IdMapCovered (procsPass σ tooltips ds pst).idMap (procsPass σ tooltips ds pst).cells ∧
      (∀ c ∈ (procsPass σ tooltips ds pst).cells, c.kind ≠ CellKind.edge) ∧
      (∀ x : String, (dictGet? (procsPass σ tooltips ds pst).idMap x).isSome →
        (dictGet? pst.idMap x).isSome ∨ x ∈ allItemIds ds) := by
  induction ds with
  | nil =>
    intro pst h1 h2
    rw [procsPass]
    exact ⟨h1, h2, fun x h => Or.inl h⟩
  | cons p rest ih =>
    obtain ⟨mId, items⟩ := p
    intro pst h1 h2
    rw [procsPass]
    have hp := emitProc_covered σ tooltips mId items pst h1 h2
    have hr := ih _ hp.1 hp.2.1
    refine ⟨hr.1, hr.2.1, ?_⟩
    intro x h
    rcases hr.2.2 x h with h3 | h3
    · rcases hp.2.2 x h3 with h4 | h4
      · exact Or.inl h4
      · refine Or.inr ?_
        show x ∈ (((mId, items) :: rest).flatMap (fun p => keysOf p.2))
        rw [List.flatMap_cons]
        exact List.mem_append_left _ h4
    · refine Or.inr ?_
      show x ∈ (((mId, items) :: rest).flatMap (fun p => keysOf p.2))
      rw [List.flatMap_cons]
      exact List.mem_append_right _ h3

theorem emitEdgesTo_spec (σ : Nat → String) (uuidSrc : String) (tgts : List (String × String)) :
    ∀ k, ∀ c ∈ (emitEdgesTo σ uuidSrc tgts k).1,
      c.kind = CellKind.edge ∧ c.source = uuidSrc ∧ ∃ sh, (sh, c.target) ∈ tgts := by
  induction tgts with
  | nil => intro k c hc; rw [emitEdgesTo] at hc; exact absurd hc (List.not_mem_nil c)
  | cons p rest ih =>
    obtain ⟨sh0, uuidTgt⟩ := p
    intro k c hc
    rw [emitEdgesTo] at hc
    rcases List.mem_cons.mp hc with h1 | h1
    · rw [h1]
      exact ⟨rfl, rfl, sh0, List.mem_cons.mpr (Or.inl rfl)⟩
    · obtain ⟨hk, hs, sh, ht⟩ := ih _ c h1
      exact ⟨hk, hs, sh, List.mem_cons_of_mem _ ht⟩

theorem emitProduct_spec (σ : Nat → String) (tgts : List (String × String))
    (srcs : List (String × String)) :
    ∀ k, ∀ c ∈ (emitProduct σ tgts srcs k).1,
      c.kind = CellKind.edge ∧ (∃ sh, (sh, c.source) ∈ srcs) ∧
        ∃ sh, (sh, c.target) ∈ tgts := by
  induction srcs with
  | nil => intro k c hc; rw [emitProduct] at hc; exact absurd hc (List.not_mem_nil c)
  | cons p rest ih =>
    obtain ⟨sh0, uuidSrc⟩ := p
    intro k c hc
    rw [emitProduct] at hc
    rcases List.mem_append.mp hc with h1 | h1
    · obtain ⟨hk, hs, sh, ht⟩ := emitEdgesTo_spec σ uuidSrc tgts _ c h1
      exact ⟨hk, ⟨sh0, hs ▸ List.mem_cons.mpr (Or.inl rfl)⟩, sh, ht⟩
    · obtain ⟨hk, ⟨sh1, hs⟩, sh2, ht⟩ := ih _ c h1
      exact ⟨hk, ⟨sh1, List.mem_cons_of_mem _ hs⟩, sh2, ht⟩

theorem edgesForOccurrence_spec (σ : Nat → String)
    (idMap : List (String × List (String × String))) (u v : String) (k : Nat) :
    ∀ c ∈ (edgesForOccurrence σ idMap u v k).1,
      c.kind = CellKind.edge ∧
      (∃ i inner sh, (i, inner) ∈ idMap ∧ (sh, c.source) ∈ inner) ∧
      (∃ i inner sh, (i, inner) ∈ idMap ∧ (sh, c.target) ∈ inner) := by
  intro c hc
  unfold edgesForOccurrence at hc
  rcases hu : dictGet? idMap u with _ | srcCopies
  · rw [hu] at hc
    rcases hv : dictGet? idMap v with _ | tgtCopies
    · rw [hv] at hc; exact absurd hc (List.not_mem_nil c)
    · rw [hv] at hc; exact absurd hc (List.not_mem_nil c)
  · rw [hu] at hc
    rcases hv : dictGet? idMap v with _ | tgtCopies
    · rw [hv] at hc; exact absurd hc (List.not_mem_nil c)
    · rw [hv] at hc
      obtain ⟨hk, ⟨sh1, hs⟩, sh2, ht⟩ := emitProduct_spec σ tgtCopies srcCopies k c hc
      exact ⟨hk, ⟨u, srcCopies, sh1, dictGet?_mem _ _ _ hu, hs⟩,
        ⟨v, tgtCopies, sh2, dictGet?_mem _ _ _ hv, ht⟩⟩

theorem edgePassTargets_spec (σ : Nat → String)
    (idMap : List (String × List (String × String))) (itemId : String)
    (tgts : List String) :
    ∀ k, ∀ c ∈ (edgePassTargets σ idMap itemId tgts k).1,
      c.kind = CellKind.edge ∧
      (∃ i inner sh, (i, inner) ∈ idMap ∧ (sh, c.source) ∈ inner) ∧
      (∃ i inner sh, (i, inner) ∈ idMap ∧ (sh, c.target) ∈ inner) := by
  induction tgts with
  | nil => intro k c hc; rw [edgePassTargets] at hc; exact absurd hc (List.not_mem_nil c)
  | cons tgt rest ih =>
    intro k c hc
    rw [edgePassTargets] at hc
    rcases List.mem_append.mp hc with h1 | h1
    · exact edgesForOccurrence_spec σ idMap itemId tgt k c h1
    · exact ih _ c h1

theorem edgePassItems_spec (σ : Nat → String)
    (idMap : List (String × List (String × String))) (lst : Items) :
    ∀ k, ∀ c ∈ (edgePassItems σ idMap lst k).1,
      c.kind = CellKind.edge ∧
      (∃ i inner sh, (i, inner) ∈ idMap ∧ (sh, c.source) ∈ inner) ∧
      (∃ i inner sh, (i, inner) ∈ idMap ∧ (sh, c.target) ∈ inner) := by
  induction lst with
  | nil => intro k c hc; rw [edgePassItems] at hc; exact absurd hc (List.not_mem_nil c)
  | cons p rest ih =>
    obtain ⟨itemId, meta⟩ := p
    intro k c hc
    rw [edgePassItems] at hc
    rcases List.mem_append.mp hc with h1 | h1
    · exact edgePassTargets_spec σ idMap itemId meta.next _ c h1
    · exact ih _ c h1

theorem edgePass_spec (σ : Nat → String)
    (idMap : List (String × List (String × String))) (ds : DataStruct) :
    ∀ k, ∀ c ∈ (edgePass σ idMap ds k).1,
      c.kind = CellKind.edge ∧
      (∃ i inner sh, (i, inner) ∈ idMap ∧ (sh, c.source) ∈ inner) ∧
      (∃ i inner sh, (i, inner) ∈ idMap ∧ (sh, c.target) ∈ inner) := by
  induction ds with
  | nil => intro k c hc; rw [edgePass] at hc; exact absurd hc (List.not_mem_nil c)
  | cons p rest ih =>
    obtain ⟨mId, items⟩ := p
    intro k c hc
    rw [edgePass] at hc
    rcases List.mem_append.mp hc with h1 | h1
    · exact edgePassItems_spec σ idMap items _ c h1
    · exact ih _ c h1

/-- C4: every edge cell emitted into the document references a source node id
and a target node id that belong to node cells emitted strictly earlier in
the document (the cell list splits into a prefix `A` with no edges — pools,
lanes, nodes, base cells — followed by the edge block `B`, and both endpoint
ids of every edge in `B` are ids of node cells in `A`); moreover a `next`
occurrence whose target does not exist as an item contributes no edge at all,
and no error is raised (the emitter is a total function). -/
theorem create_drawio_xml_edges_resolve (σ : Nat → String) (structured : DataStruct)
    (tooltips : List (String × String)) :
    ∃ A B, (create_drawio_xml σ structured tooltips).cells = A ++ B ∧
      (∀ c ∈ A, c.kind ≠ CellKind.edge) ∧
      (∀ c ∈ B, c.kind = CellKind.edge ∧
        (∃ n ∈ A, n.kind = CellKind.node ∧ n.id = c.source) ∧
        (∃ n ∈ A, n.kind = CellKind.node ∧ n.id = c.target)) ∧
      (∀ u v k, v ∉ allItemIds structured →
        (edgesForOccurrence σ (idMapOf σ structured tooltips) u v k).1 = []) := by
  have hinit : IdMapCovered (([] : List (String × List (String × String))))
      [cell0, cell1] := by
    intro i inner hi
    exact absurd hi (List.not_mem_nil _)
  have hkind0 : ∀ c ∈ [cell0, cell1], c.kind ≠ CellKind.edge := by
    intro c hc
    rcases List.mem_cons.mp hc with h1 | h1
    · rw [h1]; intro hcon; cases hcon
    · rcases List.mem_cons.mp h1 with h2 | h2
      · rw [h2]; intro hcon; cases hcon
      · exact absurd h2 (List.not_mem_nil c)
  have hmain := procsPass_covered σ tooltips structured
    { k := 1, currentX := (xStart : Int), idMap := [], colorMap := [],
      colorCounter := 0, cells := [cell0, cell1] } hinit hkind0
  refine ⟨(procsPass σ tooltips structured
      { k := 1, currentX := (xStart : Int), idMap := [], colorMap := [],
        colorCounter := 0, cells := [cell0, cell1] }).cells,
    (edgePass σ (procsPass σ tooltips structured
      { k := 1, currentX := (xStart : Int), idMap := [], colorMap := [],
        colorCounter := 0, cells := [cell0, cell1] }).idMap structured
      (procsPass σ tooltips structured
      { k := 1, currentX := (xStart : Int), idMap := [], colorMap := [],
        colorCounter := 0, cells := [cell0, cell1] }).k).1, rfl, hmain.2.1, ?_, ?_⟩
  · intro c hc
    obtain ⟨hk, ⟨i1, inner1, sh1, hm1, hs1⟩, i2, inner2, sh2, hm2, hs2⟩ :=
      edgePass_spec σ _ structured _ c hc
    obtain ⟨n1, hn1, hn1k, hn1id⟩ := hmain.1 i1 inner1 hm1 sh1 c.source hs1
    obtain ⟨n2, hn2, hn2k, hn2id⟩ := hmain.1 i2 inner2 hm2 sh2 c.target hs2
    exact ⟨hk, ⟨n1, hn1, hn1k, hn1id⟩, ⟨n2, hn2, hn2k, hn2id⟩⟩
  · intro u v k hv
    have hnone : dictGet? (idMapOf σ structured tooltips) v = none := by
      cases hg : dictGet? (idMapOf σ structured tooltips) v with
      | none => rfl
      | some inner =>
        have hisome : (dictGet? (procsPass σ tooltips structured
            { k := 1, currentX := (xStart : Int), idMap := [], colorMap := [],
              colorCounter := 0, cells := [cell0, cell1] }).idMap v).isSome := by
          rw [show idMapOf σ structured tooltips = (procsPass σ tooltips structured
            { k := 1, currentX := (xStart : Int), idMap := [], colorMap := [],
              colorCounter := 0, cells := [cell0, cell1] }).idMap from rfl] at hg
          rw [hg]
          rfl
        rcases hmain.2.2 v hisome with h1 | h1
        · cases h1
        · exact absurd h1 hv
    unfold edgesForOccurrence
    rw [hnone]
    cases dictGet? (idMapOf σ structured tooltips) u <;> rfl

theorem emitEdgesTo_length (σ : Nat → String) (uuidSrc : String)
    (tgts : List (String × String)) : ∀ k, (emitEdgesTo σ uuidSrc tgts k).1.length = tgts.length := by
  induction tgts with
  | nil => intro k; rw [emitEdgesTo]; rfl
  | cons p rest ih =>
    obtain ⟨sh0, uuidTgt⟩ := p
    intro k
    rw [emitEdgesTo]
    show ((_ :: (emitEdgesTo σ uuidSrc rest (k + 1)).1)).length = _
    rw [List.length_cons, ih, List.length_cons]

theorem emitProduct_length (σ : Nat → String) (tgts srcs : List (String × String)) :
    ∀ k, (emitProduct σ tgts srcs k).1.length = srcs.length * tgts.length := by
  induction srcs with
  | nil => intro k; rw [emitProduct]; simp
  | cons p rest ih =>
    obtain ⟨sh0, uuidSrc⟩ := p
    intro k
    rw [emitProduct]
    show ((emitEdgesTo σ uuidSrc tgts k).1 ++ _).length = _
    rw [List.length_append, emitEdgesTo_length, ih, List.length_cons]
    ring

theorem dictSet_length_new {κ α : Type} [DecidableEq κ] (l : List (κ × α)) (k : κ) (v : α)
    (h : dictGet? l k = none) : (dictSet l k v).length = l.length + 1 := by
  induction l with
  | nil => rfl
  | cons p rest ih =>
    obtain ⟨k1, v1⟩ := p
    by_cases h1 : k1 = k
    · rw [dictGet?, if_pos h1] at h; cases h
    · rw [dictGet?, if_neg h1] at h
      rw [dictSet, if_neg h1, List.length_cons, List.length_cons, ih h]

theorem emitCopies_idMap_other (σ : Nat → String) (items : Items) (levels : String → Nat)
    (laneIds : List (String × String)) (tt : Option String)
    (itemId cleanName fill : String) (lvl : Nat) (shs : List String) :
    ∀ (st : EmitSt) (x : String), x ≠ itemId →
      dictGet? (emitCopies σ items levels laneIds tt itemId cleanName fill lvl shs st).2.idMap x
        = dictGet? st.idMap x := by
  induction shs with
  | nil => intro st x hx; rw [emitCopies]
  | cons sh rest ih =>
    intro st x hx
    rw [emitCopies, ih _ _ hx]
    show dictGet? (dictUpdate st.idMap itemId _) x = _
    rw [dictGet?_dictUpdate_ne _ _ _ _ hx]

theorem emitCopies_idMap_build (σ : Nat → String) (items : Items) (levels : String → Nat)
    (laneIds : List (String × String)) (tt : Option String)
    (itemId cleanName fill : String) (lvl : Nat) (shs : List String) :
    ∀ (st : EmitSt) (inner0 : List (String × String)),
      dictGet? st.idMap itemId = some inner0 → shs.Nodup →
      (∀ sh ∈ shs, dictGet? inner0 sh = none) →
      ∃ inner1,
        dictGet? (emitCopies σ items levels laneIds tt itemId cleanName fill lvl shs st).2.idMap
          itemId = some inner1 ∧ inner1.length = inner0.length + shs.length := by
  induction shs with
  | nil =>
    intro st inner0 h hnd hfresh
    rw [emitCopies]
    exact ⟨inner0, h, rfl⟩
  | cons sh rest ih =>
    intro st inner0 h hnd hfresh
    rw [emitCopies]
    have hupd : dictGet?
        (dictUpdate st.idMap itemId (fun inner => dictSet inner sh (σ st.k))) itemId =
        some (dictSet inner0 sh (σ st.k)) := by
      rw [dictGet?_dictUpdate_self, h]
      rfl
    have hfresh0 : dictGet? inner0 sh = none := hfresh sh (List.mem_cons.mpr (Or.inl rfl))
    have hlen : (dictSet inner0 sh (σ st.k)).length = inner0.length + 1 :=
      dictSet_length_new _ _ _ hfresh0
    have hfresh2 : ∀ sh2 ∈ rest, dictGet? (dictSet inner0 sh (σ st.k)) sh2 = none := by
      intro sh2 hsh2
      have hne : sh2 ≠ sh := fun e => (List.nodup_cons.mp hnd).1 (e ▸ hsh2)
      rw [dictGet?_dictSet_ne _ _ _ _ hne]
      exact hfresh sh2 (List.mem_cons_of_mem _ hsh2)
    obtain ⟨inner1, hin, hlen1⟩ := ih
      ({ k := st.k + 1,
         placed := dictSet st.placed (sh, lvl) ((dictGet? st.placed (sh, lvl)).getD 0 + 1),
         idMap := dictUpdate st.idMap itemId (fun inner => dictSet inner sh (σ st.k)),
         colorMap := st.colorMap, colorCounter := st.colorCounter } : EmitSt)
      (dictSet inner0 sh (σ st.k)) hupd (List.nodup_cons.mp hnd).2 hfresh2
    refine ⟨inner1, hin, ?_⟩
    rw [hlen1, hlen, List.length_cons]
    ring

theorem setdefaultStep_other (itemId x : String) (st : EmitSt) (hx : x ≠ itemId) :
    dictGet? (setdefaultStep itemId st).idMap x = dictGet? st.idMap x := by
  unfold setdefaultStep
  by_cases hc : (dictGet? st.idMap itemId).isSome
  · rw [if_pos hc]
  · rw [if_neg hc]
    show dictGet? (st.idMap ++ [(itemId, [])]) x = _
    rw [dictGet?_append, dictGet?, if_neg (fun e => hx e.symm)]
    show (dictGet? st.idMap x).or (dictGet? [] x) = _
    rw [dictGet?]
    cases dictGet? st.idMap x <;> rfl

theorem setdefaultStep_fresh (itemId : String) (st : EmitSt)
    (h : dictGet? st.idMap itemId = none) :
    dictGet? (setdefaultStep itemId st).idMap itemId = some [] := by
  unfold setdefaultStep
  rw [if_neg (by rw [h]; exact fun hcon => Bool.noConfusion hcon)]
  show dictGet? (st.idMap ++ [(itemId, [])]) itemId = _
  rw [dictGet?_append, h, dictGet?, if_pos rfl]
  rfl

theorem colorBindStep_idMapGet (itemId x : String) (isMulti : Bool) (st : EmitSt) :
    dictGet? (colorBindStep itemId isMulti st).idMap x = dictGet? st.idMap x := by
  rw [colorBindStep_idMap]

theorem emitItems_idMap_other (σ : Nat → String) (items : Items) (levels : String → Nat)
    (laneIds : List (String × String)) (tooltips : List (String × String)) (lst : Items) :
    ∀ (st : EmitSt) (x : String), (∀ p ∈ lst, p.1 ≠ x) →
      dictGet? (emitItems σ items levels laneIds tooltips lst st).2.idMap x
        = dictGet? st.idMap x := by
  induction lst with
  | nil => intro st x hx; rw [emitItems]
  | cons p rest ih =>
    obtain ⟨itemId, meta⟩ := p
    intro st x hx
    have hxi : x ≠ itemId := fun e => hx (itemId, meta) (List.mem_cons.mpr (Or.inl rfl)) e.symm
    rw [emitItems, ih _ _ (fun q hq => hx q (List.mem_cons_of_mem _ hq)),
        emitCopies_idMap_other _ _ _ _ _ _ _ _ _ _ _ _ hxi,
        setdefaultStep_other _ _ _ hxi, colorBindStep_idMapGet]

theorem emitItems_idMap_hit (σ : Nat → String) (items : Items) (levels : String → Nat)
    (laneIds : List (String × String)) (tooltips : List (String × String))
    (u : String) (meta : ItemMeta) (hshnd : meta.stakeholders.Nodup) (lst : Items) :
    ∀ (st : EmitSt), (keysOf lst).Nodup → (u, meta) ∈ lst →
      dictGet? st.idMap u = none →
      ∃ inner,
        dictGet? (emitItems σ items levels laneIds tooltips lst st).2.idMap u = some inner ∧
        inner.length = meta.stakeholders.length := by
  induction lst with
  | nil => intro st _ hmem; exact absurd hmem (List.not_mem_nil _)
  | cons p rest ih =>
    obtain ⟨itemId, meta0⟩ := p
    intro st hnd hmem hnone
    have hndk : (keysOf rest).Nodup := (List.nodup_cons.mp hnd).2
    by_cases hui : u = itemId
    · subst hui
      have hmeq : meta0 = meta := by
        rcases List.mem_cons.mp hmem with h1 | h1
        · rw [Prod.mk.injEq] at h1
          exact h1.2.symm
        · have h5 : u ∈ keysOf rest := List.mem_map_of_mem Prod.fst h1
          have h6 : (u :: keysOf rest).Nodup := hnd
          exact absurd h5 ((List.nodup_cons.mp h6).1)
      subst hmeq
      rw [emitItems]
      have hfresh : dictGet? (setdefaultStep u
          (colorBindStep u (decide (meta0.stakeholders.length > 1)) st)).idMap u =
          some [] := by
        refine setdefaultStep_fresh u _ ?_
        rw [colorBindStep_idMap]
        exact hnone
      obtain ⟨inner1, hin, hlen⟩ := emitCopies_idMap_build σ items levels laneIds
        (dictGet? tooltips u) u (replaceUnderscores (afterLastColon u)) _
        (levels u) meta0.stakeholders _ [] hfresh hshnd (fun sh _ => rfl)
      refine ⟨inner1, ?_, by rw [hlen, List.length_nil, Nat.zero_add]⟩
      rw [emitItems_idMap_other]
      · exact hin
      · intro q hq e
        have h5 : u ∈ keysOf rest := by
          rw [← e]
          exact List.mem_map_of_mem Prod.fst hq
        have h6 : (u :: keysOf rest).Nodup := hnd
        exact (List.nodup_cons.mp h6).1 h5
    · have hmem2 : (u, meta) ∈ rest := by
        rcases List.mem_cons.mp hmem with h1 | h1
        · rw [Prod.mk.injEq] at h1
          exact absurd h1.1 hui
        · exact h1
      rw [emitItems]
      refine ih _ hndk hmem2 ?_
      rw [emitCopies_idMap_other _ _ _ _ _ _ _ _ _ _ _ _ hui,
          setdefaultStep_other _ _ _ hui, colorBindStep_idMapGet]
      exact hnone

theorem emitProc_idMap_other (σ : Nat → String) (tooltips : List (String × String))
    (milestoneId : String) (items : Items) (pst : PState) (x : String)
    (hx : x ∉ keysOf items) :
    dictGet? (emitProc σ tooltips milestoneId items pst).idMap x = dictGet? pst.idMap x := by
  unfold emitProc
  by_cases he : items.isEmpty
  · rw [if_pos he]
  · rw [if_neg he]
    exact emitItems_idMap_other σ items _ _ tooltips items _ x
      (fun p hp e => hx (e ▸ List.mem_map_of_mem Prod.fst hp))

theorem emitProc_idMap_hit (σ : Nat → String) (tooltips : List (String × String))
    (milestoneId : String) (items : Items) (pst : PState)
    (u : String) (meta : ItemMeta) (hshnd : meta.stakeholders.Nodup)
    (hnd : (keysOf items).Nodup) (hmem : (u, meta) ∈ items)
    (hnone : dictGet? pst.idMap u = none) :
    ∃ inner, dictGet? (emitProc σ tooltips milestoneId items pst).idMap u = some inner ∧
      inner.length = meta.stakeholders.length := by
  unfold emitProc
  have hne : items.isEmpty = false := by
    cases items with
    | nil => exact absurd hmem (List.not_mem_nil _)
    | cons q rest => rfl
  rw [if_neg (by rw [hne]; exact fun hcon => Bool.noConfusion hcon)]
  exact emitItems_idMap_hit σ items _ _ tooltips u meta hshnd items _ hnd hmem hnone

theorem procsPass_idMap_other (σ : Nat → String) (tooltips : List (String × String))
    (ds : DataStruct) :
    ∀ (pst : PState) (x : String), x ∉ allItemIds ds →
      dictGet? (procsPass σ tooltips ds pst).idMap x = dictGet? pst.idMap x := by
  induction ds with
  | nil => intro pst x hx; rw [procsPass]
  | cons p rest ih =>
    obtain ⟨mId, items⟩ := p
    intro pst x hx
    have hx1 : x ∉ keysOf items := by
      intro h
      refine hx ?_
      show x ∈ ((mId, items) :: rest).flatMap (fun p => keysOf p.2)
      rw [List.flatMap_cons]
      exact List.mem_append_left _ h
    have hx2 : x ∉ allItemIds rest := by
      intro h
      refine hx ?_
      show x ∈ ((mId, items) :: rest).flatMap (fun p => keysOf p.2)
      rw [List.flatMap_cons]
      exact List.mem_append_right _ h
    rw [procsPass, ih _ _ hx2, emitProc_idMap_other _ _ _ _ _ _ hx1]

theorem procsPass_idMap_hit (σ : Nat → String) (tooltips : List (String × String))
    (u : String) (meta : ItemMeta) (hshnd : meta.stakeholders.Nodup) (ds : DataStruct) :
    ∀ (pst : PState), (allItemIds ds).Nodup → dictGet? pst.idMap u = none →
      (∃ p ∈ ds, (u, meta) ∈ p.2) →
      ∃ inner, dictGet? (procsPass σ tooltips ds pst).idMap u = some inner ∧
        inner.length = meta.stakeholders.length := by
  induction ds with
  | nil =>
    intro pst _ _ hp
    obtain ⟨p, hp1, -⟩ := hp
    exact absurd hp1 (List.not_mem_nil p)
  | cons q rest ih =>
    obtain ⟨mId, items⟩ := q
    intro pst hnd hnone hp
    have hsplit : allItemIds ((mId, items) :: rest) = keysOf items ++ allItemIds rest := by
      show ((mId, items) :: rest).flatMap (fun p => keysOf p.2) = _
      rw [List.flatMap_cons]
      rfl
    rw [hsplit] at hnd
    rw [List.nodup_append] at hnd
    obtain ⟨hnd0, hndr, hdisj⟩ := hnd
    obtain ⟨p, hp1, hp2⟩ := hp
    rcases List.mem_cons.mp hp1 with h1 | h1
    · -- the item lives in the head procedure
      have hp2' : (u, meta) ∈ items := by
        rw [h1] at hp2
        exact hp2
      obtain ⟨inner, hin, hlen⟩ :=
        emitProc_idMap_hit σ tooltips mId items pst u meta hshnd hnd0 hp2' hnone
      refine ⟨inner, ?_, hlen⟩
      rw [procsPass, procsPass_idMap_other σ tooltips rest _ u ?_]
      · exact hin
      · intro hcon
        exact hdisj (List.mem_map_of_mem Prod.fst hp2') hcon
    · -- the item lives in a later procedure
      have hu : u ∈ allItemIds rest := by
        show u ∈ rest.flatMap (fun p => keysOf p.2)
        exact List.mem_flatMap.mpr ⟨p, h1, List.mem_map_of_mem Prod.fst hp2⟩
      have hu0 : u ∉ keysOf items := fun h => hdisj h hu
      rw [procsPass]
      refine ih _ hndr ?_ ⟨p, h1, hp2⟩
      rw [emitProc_idMap_other _ _ _ _ _ _ hu0]
      exact hnone

theorem idMapOf_eq_procsPass (σ : Nat → String) (structured : DataStruct)
    (tooltips : List (String × String)) :
    idMapOf σ structured tooltips = (procsPass σ tooltips structured
      { k := 1, currentX := (xStart : Int), idMap := [], colorMap := [],
        colorCounter := 0, cells := [cell0, cell1] }).idMap := rfl

/-- C3: for every occurrence of a successor `v` in an item `u`'s `next`
sequence, when both `u` and `v` exist as items (with globally unique item
identifiers and duplicate-free stakeholder lists, as `parse_data`
produces), the per-occurrence edge block is the full Cartesian product of
lane copies: exactly `|stakeholders(u)| * |stakeholders(v)|` directed edges,
not restricted to matching lanes. -/
theorem create_drawio_xml_edge_product (σ : Nat → String) (structured : DataStruct)
    (tooltips : List (String × String)) (hnd : (allItemIds structured).Nodup)
    (mu : String) (itsu : Items) (hmu : (mu, itsu) ∈ structured)
    (u : String) (metau : ItemMeta) (hu : (u, metau) ∈ itsu)
    (mv : String) (itsv : Items) (hmv : (mv, itsv) ∈ structured)
    (v : String) (metav : ItemMeta) (hv : (v, metav) ∈ itsv)
    (hshu : metau.stakeholders.Nodup) (hshv : metav.stakeholders.Nodup) (k : Nat) :
    ((edgesForOccurrence σ (idMapOf σ structured tooltips) u v k).1).length =
      metau.stakeholders.length * metav.stakeholders.length := by
  obtain ⟨innerU, hU, hlenU⟩ := procsPass_idMap_hit σ tooltips u metau hshu structured
    { k := 1, currentX := (xStart : Int), idMap := [], colorMap := [],
      colorCounter := 0, cells := [cell0, cell1] } hnd rfl ⟨(mu, itsu), hmu, hu⟩
  obtain ⟨innerV, hV, hlenV⟩ := procsPass_idMap_hit σ tooltips v metav hshv structured
    { k := 1, currentX := (xStart : Int), idMap := [], colorMap := [],
      colorCounter := 0, cells := [cell0, cell1] } hnd rfl ⟨(mv, itsv), hmv, hv⟩
  unfold edgesForOccurrence
  rw [idMapOf_eq_procsPass, hU, hV]
  rw [emitProduct_length, hlenU, hlenV]

/-- Witness for C3 on `sdPair` (a 2-stakeholder item `u` pointing at a
3-stakeholder item `v`): the per-occurrence block has exactly `2 * 3 = 6`
edges. -/
theorem create_drawio_xml_edge_product_witness :
    (allItemIds sdPair).Nodup ∧
    ((edgesForOccurrence (fun _ => "x") (idMapOf (fun _ => "x") sdPair []) "u" "v" 0).1).length =
      (ItemMeta.mk ["A", "B"] ["v"]).stakeholders.length *
        (ItemMeta.mk ["C", "D", "E"] []).stakeholders.length :=
  ⟨by decide,
    create_drawio_xml_edge_product (fun _ => "x") sdPair [] (by decide)
      "P" [("u", ItemMeta.mk ["A", "B"] ["v"]), ("v", ItemMeta.mk ["C", "D", "E"] [])]
      (by decide) "u" (ItemMeta.mk ["A", "B"] ["v"]) (by decide)
      "P" [("u", ItemMeta.mk ["A", "B"] ["v"]), ("v", ItemMeta.mk ["C", "D", "E"] [])]
      (by decide) "v" (ItemMeta.mk ["C", "D", "E"] []) (by decide)
      (by decide) (by decide) 0⟩

theorem allItemIds_disjoint (ds : DataStruct) (h : (allItemIds ds).Nodup)
    (p q : String × Items) (hp : p ∈ ds) (hq : q ∈ ds) (hne : p ≠ q) (x : String)
    (hxp : x ∈ keysOf p.2) : x ∉ keysOf q.2 := by
  induction ds with
  | nil => exact absurd hp (List.not_mem_nil p)
  | cons hd rest ih =>
    have hsplit : allItemIds (hd :: rest) = keysOf hd.2 ++ allItemIds rest := by
      show (hd :: rest).flatMap (fun r => keysOf r.2) = _
      rw [List.flatMap_cons]
      rfl
    rw [hsplit, List.nodup_append] at h
    obtain ⟨h0, hr, hdisj⟩ := h
    rcases List.mem_cons.mp hp with hp1 | hp1
    · rcases List.mem_cons.mp hq with hq1 | hq1
      · exact absurd (hp1.trans hq1.symm) hne
      · intro hxq
        have hq2 : x ∈ allItemIds rest :=
          List.mem_flatMap.mpr ⟨q, hq1, hxq⟩
        exact hdisj (hp1 ▸ hxp) hq2
    · rcases List.mem_cons.mp hq with hq1 | hq1
      · intro hxq
        have hp2 : x ∈ allItemIds rest :=
          List.mem_flatMap.mpr ⟨p, hp1, hxp⟩
        exact hdisj (hq1 ▸ hxq) hp2
      · exact ih hr hp1 hq1

/-- C10: a `next` reference whose target belongs to a different procedure
still produces its full cross product of edges — the edge pass resolves both
endpoints in the single `id_map` shared across procedures — even though the
target is excluded from the source procedure's level assignment (its
adjacency list filters targets to items of the same procedure). -/
theorem cross_procedure_edges_emitted (σ : Nat → String) (structured : DataStruct)
    (tooltips : List (String × String)) (hnd : (allItemIds structured).Nodup)
    (mu : String) (itsu : Items) (hmu : (mu, itsu) ∈ structured)
    (u : String) (metau : ItemMeta) (hu : (u, metau) ∈ itsu)
    (mv : String) (itsv : Items) (hmv : (mv, itsv) ∈ structured)
    (v : String) (metav : ItemMeta) (hv : (v, metav) ∈ itsv)
    (hne : (mu, itsu) ≠ (mv, itsv))
    (hshu : metau.stakeholders.Nodup) (hshv : metav.stakeholders.Nodup) (k : Nat) :
    ((edgesForOccurrence σ (idMapOf σ structured tooltips) u v k).1).length =
      metau.stakeholders.length * metav.stakeholders.length ∧
    v ∉ adjOf itsu u := by
  constructor
  · obtain ⟨innerU, hU, hlenU⟩ := procsPass_idMap_hit σ tooltips u metau hshu structured
      { k := 1, currentX := (xStart : Int), idMap := [], colorMap := [],
        colorCounter := 0, cells := [cell0, cell1] } hnd rfl ⟨(mu, itsu), hmu, hu⟩
    obtain ⟨innerV, hV, hlenV⟩ := procsPass_idMap_hit σ tooltips v metav hshv structured
      { k := 1, currentX := (xStart : Int), idMap := [], colorMap := [],
        colorCounter := 0, cells := [cell0, cell1] } hnd rfl ⟨(mv, itsv), hmv, hv⟩
    unfold edgesForOccurrence
    rw [idMapOf_eq_procsPass, hU, hV]
    rw [emitProduct_length, hlenU, hlenV]
  · intro hadj
    have hvk : v ∈ keysOf itsu := adjOf_mem_keys itsu u v hadj
    exact allItemIds_disjoint structured hnd (mv, itsv) (mu, itsu) hmv hmu
      (fun e => hne e.symm) v (List.mem_map_of_mem Prod.fst hv) hvk

/-- Witness for C10 on `sdCross`: the cross-procedure reference `u → v`
yields the `1 * 2` product of edges while `v` is absent from `u`'s
leveling adjacency. -/
theorem cross_procedure_edges_emitted_witness :
    (allItemIds sdCross).Nodup ∧
    (((edgesForOccurrence (fun _ => "x") (idMapOf (fun _ => "x") sdCross []) "u" "v" 0).1).length =
      (ItemMeta.mk ["A"] ["v"]).stakeholders.length *
        (ItemMeta.mk ["B", "C"] []).stakeholders.length ∧
      "v" ∉ adjOf [("u", ItemMeta.mk ["A"] ["v"])] "u") :=
  ⟨by decide,
    cross_procedure_edges_emitted (fun _ => "x") sdCross [] (by decide)
      "P1" [("u", ItemMeta.mk ["A"] ["v"])] (by decide)
      "u" (ItemMeta.mk ["A"] ["v"]) (by decide)
      "P2" [("v", ItemMeta.mk ["B", "C"] [])] (by decide)
      "v" (ItemMeta.mk ["B", "C"] []) (by decide)
      (by decide) (by decide) (by decide) 0⟩


theorem qden_ne_zero (a : ℚ) : ((a.den : ℚ)) ≠ 0 := by
  exact_mod_cast a.pos.ne'

theorem qadd_eq (a b : ℚ) : qadd a b = a + b := by
  unfold qadd
  rw [Rat.divInt_eq_div]
  conv_rhs => rw [← Rat.num_div_den a, ← Rat.num_div_den b]
  push_cast
  rw [div_add_div _ _ (qden_ne_zero a) (qden_ne_zero b)]
  ring_nf

theorem qsub_eq (a b : ℚ) : qsub a b = a - b := by
  unfold qsub
  rw [Rat.divInt_eq_div]
  conv_rhs => rw [← Rat.num_div_den a, ← Rat.num_div_den b]
  push_cast
  rw [div_sub_div _ _ (qden_ne_zero a) (qden_ne_zero b)]
  ring_nf

theorem qmul_eq (a b : ℚ) : qmul a b = a * b := by
  unfold qmul
  rw [Rat.divInt_eq_div]
  conv_rhs => rw [← Rat.num_div_den a, ← Rat.num_div_den b]
  push_cast
  rw [div_mul_div_comm]

theorem qdiv_eq (a b : ℚ) : qdiv a b = a / b := by
  unfold qdiv
  by_cases hb : b = 0
  · subst hb
    rw [show ((0 : ℚ)).num = 0 from rfl, mul_zero, Rat.divInt_zero, div_zero]
  · have hbn : ((b.num : ℚ)) ≠ 0 := by
      exact_mod_cast Rat.num_ne_zero.mpr hb
    rw [Rat.divInt_eq_div]
    conv_rhs => rw [← Rat.num_div_den a, ← Rat.num_div_den b]
    push_cast
    field_simp

theorem pyInt_eq_floor (q : ℚ) (h : 0 ≤ q) : pyInt q = ⌊q⌋ := by
  unfold pyInt
  rw [Rat.floor_def]
  exact Int.tdiv_eq_ediv (Rat.num_nonneg.mpr h) (Int.ofNat_nonneg _)

theorem sum_pos_exists (l : List Nat) (h : 0 < l.sum) : ∃ x ∈ l, 0 < x := by
  induction l with
  | nil => cases h
  | cons a rest ih =>
    rw [List.sum_cons] at h
    by_cases ha : 0 < a
    · exact ⟨a, List.mem_cons.mpr (Or.inl rfl), ha⟩
    · have ha0 : a = 0 := by omega
      rw [ha0, Nat.zero_add] at h
      obtain ⟨x, hx, hpos⟩ := ih h
      exact ⟨x, List.mem_cons_of_mem _ hx, hpos⟩

theorem le_foldr_max (l : List Nat) (x : Nat) (hx : x ∈ l) : x ≤ l.foldr max 0 := by
  induction l with
  | nil => cases hx
  | cons a rest ih =>
    rw [List.foldr_cons]
    rcases List.mem_cons.mp hx with rfl | h1
    · exact le_max_left _ _
    · exact le_trans (ih h1) (le_max_right _ _)

theorem laneLevelCounts_le_max (items : Items) (levels : String → Nat) (sh : String)
    (lvl : Nat) (h : 0 < laneLevelCounts items levels sh lvl) :
    laneLevelCounts items levels sh lvl ≤ maxNodesPerLane items levels sh := by
  obtain ⟨x, hx, hpos⟩ := sum_pos_exists _ (by rw [← laneLevelCounts]; exact h)
  obtain ⟨p, hp, hterm⟩ := List.mem_map.mp hx
  rw [← hterm] at hpos
  by_cases hl : levels p.1 = lvl
  · rw [if_pos hl] at hpos
    have hsh : sh ∈ p.2.stakeholders := List.count_pos_iff.mp hpos
    have hany : items.any (fun p => decide (sh ∈ p.2.stakeholders)) = true :=
      List.any_eq_true.mpr ⟨p, hp, decide_eq_true hsh⟩
    rw [maxNodesPerLane, if_pos hany]
    refine le_trans ?_ (le_foldr_max _ _ (List.mem_map.mpr ⟨p, hp, rfl⟩))
    rw [hl]
  · rw [if_neg hl] at hpos
    cases hpos

theorem slotWidth_gt (items : Items) (sh : String) (lvl : Nat)
    (hn : 0 < laneLevelCounts items (calculate_vertical_order items) sh lvl) :
    (180 : ℚ) < slotWidth items (calculate_vertical_order items) sh lvl := by
  have hnQ : (0 : ℚ) < (laneLevelCounts items (calculate_vertical_order items) sh lvl : ℚ) := by
    exact_mod_cast hn
  have hM := laneLevelCounts_le_max items (calculate_vertical_order items) sh lvl hn
  rw [slotWidth, qdiv_eq, lt_div_iff₀ hnQ]
  have hL : laneLevelCounts items (calculate_vertical_order items) sh lvl * 180 + 20 ≤
      laneWidth items (calculate_vertical_order items) sh := by
    rw [laneWidth, nodeSlotWidth, itemWidth, hPadding]
    omega
  have hLQ : ((laneLevelCounts items (calculate_vertical_order items) sh lvl * 180 + 20 : Nat) : ℚ) ≤
      ((laneWidth items (calculate_vertical_order items) sh : Nat) : ℚ) := by
    exact_mod_cast hL
  push_cast at hLQ
  linarith

theorem xPosQ_eq (items : Items) (levels : String → Nat) (sh : String) (lvl k : Nat) :
    xPosQ items levels sh lvl k =
      slotWidth items levels sh lvl * (k : ℚ) +
        (slotWidth items levels sh lvl - 160) / 2 := by
  rw [xPosQ, qadd_eq, qmul_eq, qdiv_eq, qsub_eq, itemWidth]
  push_cast
  ring

/-- **C5.** For every lane `sh` and rank `lvl` holding `n > 0` occupants, the
`n` horizontal slots of width `lane_width / n` are pairwise disjoint, their
union exactly covers the lane width at that cell (`sw * n = lw` and a point
lies in `[0, lw)` iff it lies in exactly one slot), and no two node
rectangles placed in the same `(lane, rank)` cell overlap: the integer
`x_pos` of a later slot starts at least `item_width` past the earlier one. -/
theorem slot_partition_nonoverlap (items : Items) (sh : String) (lvl : Nat)
    (hn : 0 < laneLevelCounts items (calculate_vertical_order items) sh lvl) :
    (slotWidth items (calculate_vertical_order items) sh lvl *
        (laneLevelCounts items (calculate_vertical_order items) sh lvl : ℚ) =
      (laneWidth items (calculate_vertical_order items) sh : ℚ)) ∧
    (∀ x : ℚ, (0 ≤ x ∧ x < (laneWidth items (calculate_vertical_order items) sh : ℚ)) ↔
      ∃ i : Nat, i < laneLevelCounts items (calculate_vertical_order items) sh lvl ∧
        slotWidth items (calculate_vertical_order items) sh lvl * (i : ℚ) ≤ x ∧
        x < slotWidth items (calculate_vertical_order items) sh lvl * ((i : ℚ) + 1)) ∧
    (∀ i j : Nat, i ≠ j → ∀ x : ℚ,
      slotWidth items (calculate_vertical_order items) sh lvl * (i : ℚ) ≤ x →
      x < slotWidth items (calculate_vertical_order items) sh lvl * ((i : ℚ) + 1) →
      ¬(slotWidth items (calculate_vertical_order items) sh lvl * (j : ℚ) ≤ x ∧
        x < slotWidth items (calculate_vertical_order items) sh lvl * ((j : ℚ) + 1))) ∧
    (∀ i j : Nat, i < j →
      pyInt (xPosQ items (calculate_vertical_order items) sh lvl i) + (itemWidth : Int) ≤
        pyInt (xPosQ items (calculate_vertical_order items) sh lvl j)) := by
  have hsw180 := slotWidth_gt items sh lvl hn
  have hswpos : (0 : ℚ) < slotWidth items (calculate_vertical_order items) sh lvl := by
    linarith
  have hnQ : (0 : ℚ) < (laneLevelCounts items (calculate_vertical_order items) sh lvl : ℚ) := by
    exact_mod_cast hn
  have hcover : slotWidth items (calculate_vertical_order items) sh lvl *
      (laneLevelCounts items (calculate_vertical_order items) sh lvl : ℚ) =
      (laneWidth items (calculate_vertical_order items) sh : ℚ) := by
    rw [slotWidth, qdiv_eq, div_mul_cancel₀ _ hnQ.ne']
  refine ⟨hcover, ?_, ?_, ?_⟩
  · intro x
    constructor
    · rintro ⟨hx0, hxL⟩
      have hq0 : 0 ≤ x / slotWidth items (calculate_vertical_order items) sh lvl :=
        div_nonneg hx0 hswpos.le
      have hfl0 : 0 ≤ ⌊x / slotWidth items (calculate_vertical_order items) sh lvl⌋ :=
        Int.floor_nonneg.mpr hq0
      refine ⟨(⌊x / slotWidth items (calculate_vertical_order items) sh lvl⌋).toNat, ?_, ?_, ?_⟩
      · have hlt : x / slotWidth items (calculate_vertical_order items) sh lvl <
            (laneLevelCounts items (calculate_vertical_order items) sh lvl : ℚ) := by
          rw [div_lt_iff₀ hswpos]
          calc x < (laneWidth items (calculate_vertical_order items) sh : ℚ) := hxL
            _ = _ := by rw [← hcover]; ring
        have hflt : ⌊x / slotWidth items (calculate_vertical_order items) sh lvl⌋ <
            (laneLevelCounts items (calculate_vertical_order items) sh lvl : Int) := by
          exact Int.floor_lt.mpr (by exact_mod_cast hlt)
        exact (Int.toNat_lt' hn.ne').mpr hflt
      · have h1 : ((⌊x / slotWidth items (calculate_vertical_order items) sh lvl⌋.toNat : Nat) : ℚ) ≤
            x / slotWidth items (calculate_vertical_order items) sh lvl := by
          have := Int.floor_le (x / slotWidth items (calculate_vertical_order items) sh lvl)
          rw [show ((⌊x / slotWidth items (calculate_vertical_order items) sh lvl⌋.toNat : Nat) : ℚ) =
              ((⌊x / slotWidth items (calculate_vertical_order items) sh lvl⌋.toNat : Int) : ℚ) by
            push_cast; ring]
          rw [Int.toNat_of_nonneg hfl0]
          exact this
        calc slotWidth items (calculate_vertical_order items) sh lvl *
            ((⌊x / slotWidth items (calculate_vertical_order items) sh lvl⌋.toNat : Nat) : ℚ) ≤
            slotWidth items (calculate_vertical_order items) sh lvl *
              (x / slotWidth items (calculate_vertical_order items) sh lvl) :=
              mul_le_mul_of_nonneg_left h1 hswpos.le
          _ = x := by field_simp
      · have h2 : x / slotWidth items (calculate_vertical_order items) sh lvl <
            ((⌊x / slotWidth items (calculate_vertical_order items) sh lvl⌋.toNat : Nat) : ℚ) + 1 := by
          have := Int.lt_floor_add_one (x / slotWidth items (calculate_vertical_order items) sh lvl)
          rw [show ((⌊x / slotWidth items (calculate_vertical_order items) sh lvl⌋.toNat : Nat) : ℚ) =
              ((⌊x / slotWidth items (calculate_vertical_order items) sh lvl⌋.toNat : Int) : ℚ) by
            push_cast; ring]
          rw [Int.toNat_of_nonneg hfl0]
          exact_mod_cast this
        calc x = slotWidth items (calculate_vertical_order items) sh lvl *
            (x / slotWidth items (calculate_vertical_order items) sh lvl) := by field_simp
          _ < _ := by
              exact mul_lt_mul_of_pos_left h2 hswpos
    · rintro ⟨i, hi, h1, h2⟩
      constructor
      · calc (0 : ℚ) ≤ slotWidth items (calculate_vertical_order items) sh lvl * (i : ℚ) :=
            mul_nonneg hswpos.le (Nat.cast_nonneg i)
          _ ≤ x := h1
      · have hi1 : ((i : ℚ) + 1) ≤ (laneLevelCounts items (calculate_vertical_order items) sh lvl : ℚ) := by
          exact_mod_cast Nat.succ_le_of_lt hi
        calc x < slotWidth items (calculate_vertical_order items) sh lvl * ((i : ℚ) + 1) := h2
          _ ≤ slotWidth items (calculate_vertical_order items) sh lvl *
              (laneLevelCounts items (calculate_vertical_order items) sh lvl : ℚ) :=
              mul_le_mul_of_nonneg_left hi1 hswpos.le
          _ = (laneWidth items (calculate_vertical_order items) sh : ℚ) := hcover
  · rintro i j hij x h1 h2 ⟨h3, h4⟩
    rcases Nat.lt_or_ge i j with h | h
    · have hc : ((i : ℚ) + 1) ≤ (j : ℚ) := by exact_mod_cast Nat.succ_le_of_lt h
      have := mul_le_mul_of_nonneg_left hc hswpos.le
      linarith
    · have hji : j < i := lt_of_le_of_ne h (fun e => hij e.symm)
      have hc : ((j : ℚ) + 1) ≤ (i : ℚ) := by exact_mod_cast Nat.succ_le_of_lt hji
      have := mul_le_mul_of_nonneg_left hc hswpos.le
      linarith
  · intro i j hij
    have hnn : ∀ k : Nat, 0 ≤ xPosQ items (calculate_vertical_order items) sh lvl k := by
      intro k
      rw [xPosQ_eq]
      have : (0 : ℚ) ≤ slotWidth items (calculate_vertical_order items) sh lvl * (k : ℚ) :=
        mul_nonneg hswpos.le (Nat.cast_nonneg k)
      linarith
    rw [pyInt_eq_floor _ (hnn i), pyInt_eq_floor _ (hnn j)]
    have hstep : xPosQ items (calculate_vertical_order items) sh lvl i + ((180 : Int) : ℚ) ≤
        xPosQ items (calculate_vertical_order items) sh lvl j := by
      rw [xPosQ_eq, xPosQ_eq]
      have hc : ((i : ℚ) + 1) ≤ (j : ℚ) := by exact_mod_cast Nat.succ_le_of_lt hij
      have := mul_le_mul_of_nonneg_left hc hswpos.le
      push_cast
      linarith
    have hfloor : ⌊xPosQ items (calculate_vertical_order items) sh lvl i⌋ + (180 : Int) ≤
        ⌊xPosQ items (calculate_vertical_order items) sh lvl j⌋ := by
      rw [← Int.floor_add_int (xPosQ items (calculate_vertical_order items) sh lvl i) (180 : Int)]
      exact Int.floor_le_floor hstep
    rw [itemWidth]
    omega

theorem slot_partition_nonoverlap_witness :
    0 < laneLevelCounts itemsTwo (calculate_vertical_order itemsTwo) "S" 0 ∧
    pyInt (xPosQ itemsTwo (calculate_vertical_order itemsTwo) "S" 0 0) + (itemWidth : Int) ≤
      pyInt (xPosQ itemsTwo (calculate_vertical_order itemsTwo) "S" 0 1) :=
  ⟨by decide, (slot_partition_nonoverlap itemsTwo "S" 0 (by decide)).2.2.2 0 1 (by decide)⟩

theorem dictSet_map_fst {α : Type} (l : List (String × α)) (k : String) (v : α) :
    (dictSet l k v).map Prod.fst = keyInsert k (l.map Prod.fst) := by
  induction l with
  | nil => rfl
  | cons p rest ih =>
    obtain ⟨k1, v1⟩ := p
    by_cases h : k1 = k
    · subst h
      simp [dictSet, keyInsert]
    · simp only [dictSet, List.map_cons, keyInsert, if_neg h, ih]

theorem dictGet?_of_shape (m1 m2 : List (String × List (String × String)))
    (h : idMapShape m1 = idMapShape m2) (i : String) :
    Option.map (fun l => l.map Prod.fst) (dictGet? m1 i) =
      Option.map (fun l => l.map Prod.fst) (dictGet? m2 i) := by
  induction m1 generalizing m2 with
  | nil =>
    cases m2 with
    | nil => rfl
    | cons q rest2 => exact absurd h (by simp [idMapShape])
  | cons p rest ih =>
    cases m2 with
    | nil => exact absurd h (by simp [idMapShape])
    | cons q rest2 =>
      obtain ⟨k1, v1⟩ := p
      obtain ⟨k2, v2⟩ := q
      simp only [idMapShape, List.map_cons] at h
      have hk : k1 = k2 := congrArg Prod.fst (List.head_eq_of_cons_eq h)
      have hv : v1.map Prod.fst = v2.map Prod.fst :=
        congrArg Prod.snd (List.head_eq_of_cons_eq h)
      have ht : idMapShape rest = idMapShape rest2 := List.tail_eq_of_cons_eq h
      rw [dictGet?, dictGet?]
      by_cases hi : k1 = i
      · rw [if_pos hi, if_pos (hk ▸ hi)]
        simpa using hv
      · rw [if_neg hi, if_neg (hk ▸ hi)]
        exact ih rest2 ht

theorem dictGet?_isSome_of_shape (m1 m2 : List (String × List (String × String)))
    (h : idMapShape m1 = idMapShape m2) (i : String) :
    (dictGet? m1 i).isSome = (dictGet? m2 i).isSome := by
  have := congrArg Option.isSome (dictGet?_of_shape m1 m2 h i)
  simpa using this

theorem idMapShape_dictUpdate_set (m1 m2 : List (String × List (String × String)))
    (h : idMapShape m1 = idMapShape m2) (i sh u1 u2 : String) :
    idMapShape (dictUpdate m1 i (fun inner => dictSet inner sh u1)) =
      idMapShape (dictUpdate m2 i (fun inner => dictSet inner sh u2)) := by
  induction m1 generalizing m2 with
  | nil =>
    cases m2 with
    | nil => rfl
    | cons q rest2 => exact absurd h (by simp [idMapShape])
  | cons p rest ih =>
    cases m2 with
    | nil => exact absurd h (by simp [idMapShape])
    | cons q rest2 =>
      obtain ⟨k1, v1⟩ := p
      obtain ⟨k2, v2⟩ := q
      simp only [idMapShape, List.map_cons] at h
      have hk : k1 = k2 := congrArg Prod.fst (List.head_eq_of_cons_eq h)
      have hv : v1.map Prod.fst = v2.map Prod.fst :=
        congrArg Prod.snd (List.head_eq_of_cons_eq h)
      have ht : idMapShape rest = idMapShape rest2 := List.tail_eq_of_cons_eq h
      rw [dictUpdate, dictUpdate]
      by_cases hi : k1 = i
      · rw [if_pos hi, if_pos (hk ▸ hi)]
        simp only [idMapShape, List.map_cons] at ht ⊢
        simp only [dictSet_map_fst, hk, hv, ht]
      · rw [if_neg hi, if_neg (hk ▸ hi)]
        have hrec := ih rest2 ht
        simp only [idMapShape, List.map_cons] at hrec ⊢
        simp only [hk, hv, hrec]

theorem idMapShape_append_empty (m1 m2 : List (String × List (String × String)))
    (h : idMapShape m1 = idMapShape m2) (i : String) :
    idMapShape (m1 ++ [(i, [])]) = idMapShape (m2 ++ [(i, [])]) := by
  rw [idMapShape, idMapShape, List.map_append, List.map_append]
  rw [show (idMapShape m1 : List (String × List String)) = m1.map (fun p => (p.1, p.2.map Prod.fst)) from rfl] at h
  rw [show (idMapShape m2 : List (String × List String)) = m2.map (fun p => (p.1, p.2.map Prod.fst)) from rfl] at h
  rw [h]

theorem setdefaultStep_rel (itemId : String) (st1 st2 : EmitSt) (h : EmitRel st1 st2) :
    EmitRel (setdefaultStep itemId st1) (setdefaultStep itemId st2) := by
  obtain ⟨hk, hp, hs, hc, hn⟩ := h
  rw [setdefaultStep, setdefaultStep]
  rw [dictGet?_isSome_of_shape st1.idMap st2.idMap hs itemId]
  by_cases hi : (dictGet? st2.idMap itemId).isSome = true
  · rw [if_pos hi, if_pos hi]
    exact ⟨hk, hp, hs, hc, hn⟩
  · rw [if_neg hi, if_neg hi]
    exact ⟨hk, hp, idMapShape_append_empty _ _ hs itemId, hc, hn⟩

theorem colorBindStep_rel (itemId : String) (isMulti : Bool) (st1 st2 : EmitSt)
    (h : EmitRel st1 st2) :
    EmitRel (colorBindStep itemId isMulti st1) (colorBindStep itemId isMulti st2) := by
  obtain ⟨hk, hp, hs, hc, hn⟩ := h
  rw [colorBindStep, colorBindStep, hc, hn]
  by_cases hi : (isMulti && (dictGet? st2.colorMap itemId).isNone) = true
  · rw [if_pos hi, if_pos hi]
    exact ⟨hk, hp, hs, rfl, rfl⟩
  · rw [if_neg hi, if_neg hi]
    exact ⟨hk, hp, hs, hc, hn⟩

theorem colorBindStep_colorMap_eq (itemId : String) (isMulti : Bool) (st1 st2 : EmitSt)
    (hc : st1.colorMap = st2.colorMap) (hn : st1.colorCounter = st2.colorCounter) :
    (colorBindStep itemId isMulti st1).colorMap = (colorBindStep itemId isMulti st2).colorMap := by
  rw [colorBindStep, colorBindStep, hc, hn]
  by_cases hi : (isMulti && (dictGet? st2.colorMap itemId).isNone) = true
  · rw [if_pos hi, if_pos hi]
  · rw [if_neg hi, if_neg hi, hc]

theorem emitCopies_rel (σ1 σ2 : Nat → String) (items : Items) (levels : String → Nat)
    (laneIds1 laneIds2 : List (String × String)) (tt : Option String)
    (itemId cleanName fill : String) (lvl : Nat) (shs : List String) :
    ∀ (st1 st2 : EmitSt), EmitRel st1 st2 →
      (emitCopies σ1 items levels laneIds1 tt itemId cleanName fill lvl shs st1).1.map eraseCell =
        (emitCopies σ2 items levels laneIds2 tt itemId cleanName fill lvl shs st2).1.map eraseCell ∧
      EmitRel (emitCopies σ1 items levels laneIds1 tt itemId cleanName fill lvl shs st1).2
        (emitCopies σ2 items levels laneIds2 tt itemId cleanName fill lvl shs st2).2 := by
  induction shs with
  | nil =>
    intro st1 st2 h
    rw [emitCopies, emitCopies]
    exact ⟨rfl, h⟩
  | cons sh rest ih =>
    intro st1 st2 h
    obtain ⟨hk, hp, hs, hc, hn⟩ := h
    rw [emitCopies, emitCopies]
    have hrel2 : EmitRel
        ({ k := st1.k + 1,
           placed := dictSet st1.placed (sh, lvl) ((dictGet? st1.placed (sh, lvl)).getD 0 + 1),
           idMap := dictUpdate st1.idMap itemId (fun inner => dictSet inner sh (σ1 st1.k)),
           colorMap := st1.colorMap, colorCounter := st1.colorCounter } : EmitSt)
        ({ k := st2.k + 1,
           placed := dictSet st2.placed (sh, lvl) ((dictGet? st2.placed (sh, lvl)).getD 0 + 1),
           idMap := dictUpdate st2.idMap itemId (fun inner => dictSet inner sh (σ2 st2.k)),
           colorMap := st2.colorMap, colorCounter := st2.colorCounter } : EmitSt) := by
      refine ⟨by rw [hk], by rw [hp], ?_, hc, hn⟩
      exact idMapShape_dictUpdate_set _ _ hs itemId sh _ _
    have hrec := ih _ _ hrel2
    refine ⟨?_, hrec.2⟩
    show eraseCell _ :: _ = eraseCell _ :: _
    rw [hrec.1]
    congr 1
    simp [eraseCell, hp]

theorem emitItems_rel (σ1 σ2 : Nat → String) (items : Items) (levels : String → Nat)
    (laneIds1 laneIds2 : List (String × String)) (tooltips : List (String × String))
    (its : Items) :
    ∀ (st1 st2 : EmitSt), EmitRel st1 st2 →
      (emitItems σ1 items levels laneIds1 tooltips its st1).1.map eraseCell =
        (emitItems σ2 items levels laneIds2 tooltips its st2).1.map eraseCell ∧
      EmitRel (emitItems σ1 items levels laneIds1 tooltips its st1).2
        (emitItems σ2 items levels laneIds2 tooltips its st2).2 := by
  induction its with
  | nil =>
    intro st1 st2 h
    rw [emitItems, emitItems]
    exact ⟨rfl, h⟩
  | cons p rest ih =>
    obtain ⟨itemId, meta⟩ := p
    intro st1 st2 h
    rw [emitItems, emitItems]
    set m := decide (meta.stakeholders.length > 1) with hm
    set sta := setdefaultStep itemId (colorBindStep itemId m st1) with hsta
    set stb := setdefaultStep itemId (colorBindStep itemId m st2) with hstb
    have h2 : EmitRel sta stb :=
      setdefaultStep_rel itemId _ _ (colorBindStep_rel itemId m st1 st2 h)
    have hcm : sta.colorMap = stb.colorMap := h2.2.2.2.1
    rw [hcm]
    have hcop := emitCopies_rel σ1 σ2 items levels laneIds1 laneIds2 (dictGet? tooltips itemId)
      itemId (replaceUnderscores (afterLastColon itemId))
      (if m then (dictGet? stb.colorMap itemId).getD "" else "#ffffff") (levels itemId)
      meta.stakeholders sta stb h2
    have hrec := ih _ _ hcop.2
    constructor
    · simp only [List.map_append, hcop.1, hrec.1]
    · exact hrec.2

theorem emitLanes_rel (σ1 σ2 : Nat → String) (poolId1 poolId2 : String) (poolH : Nat)
    (items : Items) (levels : String → Nat) (shs : List String) :
    ∀ (accX k : Nat),
      (emitLanes σ1 poolId1 poolH items levels shs accX k).1.map eraseCell =
        (emitLanes σ2 poolId2 poolH items levels shs accX k).1.map eraseCell ∧
      (emitLanes σ1 poolId1 poolH items levels shs accX k).2.2 =
        (emitLanes σ2 poolId2 poolH items levels shs accX k).2.2 := by
  induction shs with
  | nil =>
    intro accX k
    rw [emitLanes, emitLanes]
    exact ⟨rfl, rfl⟩
  | cons sh rest ih =>
    intro accX k
    rw [emitLanes, emitLanes]
    have hrec := ih (accX + laneWidth items levels sh) (k + 1)
    constructor
    · simp only [List.map_cons, hrec.1]
      congr 1
    · exact hrec.2

theorem emitProc_rel (σ1 σ2 : Nat → String) (tooltips : List (String × String))
    (milestoneId : String) (items : Items) (pst1 pst2 : PState) (h : PRel pst1 pst2) :
    PRel (emitProc σ1 tooltips milestoneId items pst1)
      (emitProc σ2 tooltips milestoneId items pst2) := by
  obtain ⟨hk, hx, hs, hc, hn, hcells⟩ := h
  rw [emitProc, emitProc]
  by_cases he : items.isEmpty
  · rw [if_pos he, if_pos he]
    exact ⟨hk, hx, hs, hc, hn, hcells⟩
  · rw [if_neg he, if_neg he]
    rw [hk, hx]
    set levels := calculate_vertical_order items with hlev
    set allSh := allStakeholders items with hallsh
    set poolH := (maxLevel items levels + 1) * verticalSpacing + laneHeaderHeight + 60 with hph
    have hlanes := emitLanes_rel σ1 σ2 (σ1 pst2.k) (σ2 pst2.k) poolH items levels allSh
      0 (pst2.k + 1)
    set L1 := emitLanes σ1 (σ1 pst2.k) poolH items levels allSh 0 (pst2.k + 1) with hL1
    set L2 := emitLanes σ2 (σ2 pst2.k) poolH items levels allSh 0 (pst2.k + 1) with hL2
    set st01 : EmitSt :=
      { k := L1.2.2, placed := [], idMap := pst1.idMap,
        colorMap := pst1.colorMap, colorCounter := pst1.colorCounter } with hst01
    set st02 : EmitSt :=
      { k := L2.2.2, placed := [], idMap := pst2.idMap,
        colorMap := pst2.colorMap, colorCounter := pst2.colorCounter } with hst02
    have hrel0 : EmitRel st01 st02 := ⟨hlanes.2, rfl, hs, hc, hn⟩
    have hitems := emitItems_rel σ1 σ2 items levels L1.2.1 L2.2.1 tooltips items
      st01 st02 hrel0
    refine ⟨hitems.2.1, rfl, hitems.2.2.2.1, hitems.2.2.2.2.1, hitems.2.2.2.2.2, ?_⟩
    simp only [List.map_append, hcells, hlanes.1, hitems.1]
    rfl

theorem procsPass_rel (σ1 σ2 : Nat → String) (tooltips : List (String × String))
    (structured : DataStruct) :
    ∀ (pst1 pst2 : PState), PRel pst1 pst2 →
      PRel (procsPass σ1 tooltips structured pst1) (procsPass σ2 tooltips structured pst2) := by
  induction structured with
  | nil =>
    intro pst1 pst2 h
    rw [procsPass, procsPass]
    exact h
  | cons p rest ih =>
    obtain ⟨mId, items⟩ := p
    intro pst1 pst2 h
    rw [procsPass, procsPass]
    exact ih _ _ (emitProc_rel σ1 σ2 tooltips mId items pst1 pst2 h)

theorem emitEdgesTo_erase (σ : Nat → String) (uuidSrc : String)
    (tgts : List (String × String)) :
    ∀ k : Nat,
      (emitEdgesTo σ uuidSrc tgts k).1.map eraseCell =
        List.replicate tgts.length erasedEdgeCell ∧
      (emitEdgesTo σ uuidSrc tgts k).2 = k + tgts.length := by
  induction tgts with
  | nil =>
    intro k
    rw [emitEdgesTo]
    exact ⟨rfl, rfl⟩
  | cons p rest ih =>
    obtain ⟨sh, uuidTgt⟩ := p
    intro k
    rw [emitEdgesTo]
    have hrec := ih (k + 1)
    constructor
    · simp only [List.map_cons, hrec.1, List.length_cons, List.replicate_succ]
      rfl
    · show (emitEdgesTo σ uuidSrc rest (k + 1)).2 = _
      rw [hrec.2, List.length_cons]
      omega

theorem emitProduct_erase (σ : Nat → String) (tgtCopies : List (String × String))
    (srcs : List (String × String)) :
    ∀ k : Nat,
      (emitProduct σ tgtCopies srcs k).1.map eraseCell =
        List.replicate (srcs.length * tgtCopies.length) erasedEdgeCell ∧
      (emitProduct σ tgtCopies srcs k).2 = k + srcs.length * tgtCopies.length := by
  induction srcs with
  | nil =>
    intro k
    rw [emitProduct]
    exact ⟨by simp, by simp⟩
  | cons p rest ih =>
    obtain ⟨sh, uuidSrc⟩ := p
    intro k
    rw [emitProduct]
    have h1 := emitEdgesTo_erase σ uuidSrc tgtCopies k
    have hrec := ih (emitEdgesTo σ uuidSrc tgtCopies k).2
    constructor
    · simp only [List.map_append, h1.1, hrec.1, List.length_cons]
      rw [← List.replicate_add]
      congr 1
      ring
    · show (emitProduct σ tgtCopies rest (emitEdgesTo σ uuidSrc tgtCopies k).2).2 = _
      rw [hrec.2, h1.2, List.length_cons]
      ring

theorem edgesForOccurrence_rel (σ1 σ2 : Nat → String)
    (idMap1 idMap2 : List (String × List (String × String)))
    (hs : idMapShape idMap1 = idMapShape idMap2) (itemId targetId : String) (k : Nat) :
    (edgesForOccurrence σ1 idMap1 itemId targetId k).1.map eraseCell =
      (edgesForOccurrence σ2 idMap2 itemId targetId k).1.map eraseCell ∧
    (edgesForOccurrence σ1 idMap1 itemId targetId k).2 =
      (edgesForOccurrence σ2 idMap2 itemId targetId k).2 := by
  have hi := dictGet?_of_shape idMap1 idMap2 hs itemId
  have htg := dictGet?_of_shape idMap1 idMap2 hs targetId
  rw [edgesForOccurrence, edgesForOccurrence]
  rcases e1 : dictGet? idMap1 itemId with _ | src1 <;>
    rcases e2 : dictGet? idMap2 itemId with _ | src2 <;>
    rw [e1, e2] at hi
  · rcases e3 : dictGet? idMap1 targetId with _ | t1 <;>
      rcases e4 : dictGet? idMap2 targetId with _ | t2 <;>
      exact ⟨rfl, rfl⟩
  · exact absurd hi (by simp)
  · exact absurd hi (by simp)
  · have hsrc : src1.map Prod.fst = src2.map Prod.fst := by simpa using hi
    have hlsrc : src1.length = src2.length := by
      rw [← List.length_map src1 Prod.fst, hsrc, List.length_map]
    rcases e3 : dictGet? idMap1 targetId with _ | t1 <;>
      rcases e4 : dictGet? idMap2 targetId with _ | t2 <;>
      rw [e3, e4] at htg
    · exact ⟨rfl, rfl⟩
    · exact absurd htg (by simp)
    · exact absurd htg (by simp)
    · have htgt : t1.map Prod.fst = t2.map Prod.fst := by simpa using htg
      have hlt : t1.length = t2.length := by
        rw [← List.length_map t1 Prod.fst, htgt, List.length_map]
      constructor
      · show (emitProduct σ1 t1 src1 k).1.map eraseCell =
          (emitProduct σ2 t2 src2 k).1.map eraseCell
        rw [(emitProduct_erase σ1 t1 src1 k).1, (emitProduct_erase σ2 t2 src2 k).1,
          hlsrc, hlt]
      · show (emitProduct σ1 t1 src1 k).2 = (emitProduct σ2 t2 src2 k).2
        rw [(emitProduct_erase σ1 t1 src1 k).2, (emitProduct_erase σ2 t2 src2 k).2,
          hlsrc, hlt]

theorem edgePassTargets_rel (σ1 σ2 : Nat → String)
    (idMap1 idMap2 : List (String × List (String × String)))
    (hs : idMapShape idMap1 = idMapShape idMap2) (itemId : String) (tgts : List String) :
    ∀ k : Nat,
      (edgePassTargets σ1 idMap1 itemId tgts k).1.map eraseCell =
        (edgePassTargets σ2 idMap2 itemId tgts k).1.map eraseCell ∧
      (edgePassTargets σ1 idMap1 itemId tgts k).2 =
        (edgePassTargets σ2 idMap2 itemId tgts k).2 := by
  induction tgts with
  | nil =>
    intro k
    rw [edgePassTargets, edgePassTargets]
    exact ⟨rfl, rfl⟩
  | cons tgt rest ih =>
    intro k
    rw [edgePassTargets, edgePassTargets]
    have h1 := edgesForOccurrence_rel σ1 σ2 idMap1 idMap2 hs itemId tgt k
    have hrec := ih (edgesForOccurrence σ1 idMap1 itemId tgt k).2
    rw [h1.2] at hrec
    constructor
    · simp only [List.map_append, h1.1, h1.2, hrec.1]
    · show (edgePassTargets σ1 idMap1 itemId rest (edgesForOccurrence σ1 idMap1 itemId tgt k).2).2 = _
      rw [h1.2, hrec.2]

theorem edgePassItems_rel (σ1 σ2 : Nat → String)
    (idMap1 idMap2 : List (String × List (String × String)))
    (hs : idMapShape idMap1 = idMapShape idMap2) (its : Items) :
    ∀ k : Nat,
      (edgePassItems σ1 idMap1 its k).1.map eraseCell =
        (edgePassItems σ2 idMap2 its k).1.map eraseCell ∧
      (edgePassItems σ1 idMap1 its k).2 = (edgePassItems σ2 idMap2 its k).2 := by
  induction its with
  | nil =>
    intro k
    rw [edgePassItems, edgePassItems]
    exact ⟨rfl, rfl⟩
  | cons p rest ih =>
    obtain ⟨itemId, meta⟩ := p
    intro k
    rw [edgePassItems, edgePassItems]
    have h1 := edgePassTargets_rel σ1 σ2 idMap1 idMap2 hs itemId meta.next k
    have hrec := ih (edgePassTargets σ1 idMap1 itemId meta.next k).2
    rw [h1.2] at hrec
    constructor
    · simp only [List.map_append, h1.1, h1.2, hrec.1]
    · show (edgePassItems σ1 idMap1 rest (edgePassTargets σ1 idMap1 itemId meta.next k).2).2 = _
      rw [h1.2, hrec.2]

theorem edgePass_rel (σ1 σ2 : Nat → String)
    (idMap1 idMap2 : List (String × List (String × String)))
    (hs : idMapShape idMap1 = idMapShape idMap2) (structured : DataStruct) :
    ∀ k : Nat,
      (edgePass σ1 idMap1 structured k).1.map eraseCell =
        (edgePass σ2 idMap2 structured k).1.map eraseCell ∧
      (edgePass σ1 idMap1 structured k).2 = (edgePass σ2 idMap2 structured k).2 := by
  induction structured with
  | nil =>
    intro k
    rw [edgePass, edgePass]
    exact ⟨rfl, rfl⟩
  | cons p rest ih =>
    obtain ⟨mId, items⟩ := p
    intro k
    rw [edgePass, edgePass]
    have h1 := edgePassItems_rel σ1 σ2 idMap1 idMap2 hs items k
    have hrec := ih (edgePassItems σ1 idMap1 items k).2
    rw [h1.2] at hrec
    constructor
    · simp only [List.map_append, h1.1, h1.2, hrec.1]
    · show (edgePass σ1 idMap1 rest (edgePassItems σ1 idMap1 items k).2).2 = _
      rw [h1.2, hrec.2]

theorem length_filter_map_eraseCell (kk : CellKind) (cells : List Cell) :
    ((cells.map eraseCell).filter (fun c => decide (c.kind = kk))).length =
      (cells.filter (fun c => decide (c.kind = kk))).length := by
  induction cells with
  | nil => rfl
  | cons c rest ih =>
    simp only [List.map_cons, List.filter_cons]
    have hkind : (eraseCell c).kind = c.kind := rfl
    rw [hkind]
    by_cases hc : decide (c.kind = kk) = true
    · rw [if_pos hc, if_pos hc]
      simp [ih]
    · rw [if_neg hc, if_neg hc]
      exact ih

theorem countKind_eq_of_erase (d1 d2 : Doc)
    (h : d1.cells.map eraseCell = d2.cells.map eraseCell) (kk : CellKind) :
    countKind d1 kk = countKind d2 kk := by
  rw [countKind, countKind, ← length_filter_map_eraseCell, h, length_filter_map_eraseCell]

/-- **C6.** (amended) Re-running the pipeline on identical input produces
identical color bindings and identical node/edge counts — every cell is even
identical once its run-specific uuid references (its own id, parent, source
and target) are erased — but the serialized output is NOT byte-for-byte
identical across runs, because `uuid.uuid4()` draws fresh identifiers each
run (see the counterexample theorem). -/
theorem create_drawio_xml_deterministic_content (σ1 σ2 : Nat → String)
    (structured : DataStruct) (tooltips : List (String × String)) :
    (create_drawio_xml σ1 structured tooltips).cells.map eraseCell =
      (create_drawio_xml σ2 structured tooltips).cells.map eraseCell ∧
    colorMapOf σ1 structured tooltips = colorMapOf σ2 structured tooltips ∧
    ∀ kk : CellKind, countKind (create_drawio_xml σ1 structured tooltips) kk =
      countKind (create_drawio_xml σ2 structured tooltips) kk := by
  set pst0 : PState :=
    { k := 1, currentX := (xStart : Int), idMap := [], colorMap := [],
      colorCounter := 0, cells := [cell0, cell1] } with hpst0
  have hpp := procsPass_rel σ1 σ2 tooltips structured pst0 pst0
    ⟨rfl, rfl, rfl, rfl, rfl, rfl⟩
  set A := procsPass σ1 tooltips structured pst0 with hA
  set B := procsPass σ2 tooltips structured pst0 with hB
  obtain ⟨hk, hx, hs, hc, hn, hcells⟩ := hpp
  have hedge := edgePass_rel σ1 σ2 A.idMap B.idMap hs structured A.k
  have hedge2 : (edgePass σ1 A.idMap structured A.k).1.map eraseCell =
      (edgePass σ2 B.idMap structured B.k).1.map eraseCell := by
    rw [← hk]
    exact hedge.1
  have hmain : (create_drawio_xml σ1 structured tooltips).cells.map eraseCell =
      (create_drawio_xml σ2 structured tooltips).cells.map eraseCell := by
    show (A.cells ++ (edgePass σ1 A.idMap structured A.k).1).map eraseCell =
      (B.cells ++ (edgePass σ2 B.idMap structured B.k).1).map eraseCell
    rw [List.map_append, List.map_append, hcells, hedge2]
  exact ⟨hmain, hc, fun kk => countKind_eq_of_erase _ _ hmain kk⟩

theorem create_drawio_xml_output_differs :
    parse_data pipelineTriples = some (dsPipe, []) ∧
    create_drawio_xml (fun _ => "x") dsPipe [] ≠
      create_drawio_xml (fun n => if n = 0 then "y" else "x") dsPipe [] := by
  exact ⟨by decide, by decide⟩
